import Mathlib

/-!
Verification development for the Basic-Search-Engine web crawler
(`web_crawler.go`, with the earlier near-duplicate crawler file as secondary
reference).

Go strings are modelled byte-exactly as `GoStr := List Nat` (each entry one
byte), because the crawler's sanitization step (`safeUTF8`, i.e.
`strings.ToValidUTF8(s, "")`) and several extraction steps (`len` counts
bytes, `[]rune` conversion counts characters) are sensitive to the
byte/character distinction and to invalid UTF-8, which Lean's own `String`
cannot represent.

External collaborators (Go's `net/url`, the goquery selector engine, MongoDB,
the HTTP client) are modelled at the exact interface boundary the crawler
uses, as the specification prescribes; doc comments on those definitions say
which library behaviour they reproduce.
-/

/-- A Go string: a list of bytes (each `< 256`; the bound is irrelevant to the
    algorithms and is not carried as an invariant). -/
abbrev GoStr := List Nat

/-- UTF-8 encoding of one Unicode code point (used to write string literals
    and to model Go's `string([]rune)` conversion). -/
def encChar (c : Nat) : GoStr :=
  if c < 0x80 then [c]
  else if c < 0x800 then [0xC0 + c / 64, 0x80 + c % 64]
  else if c < 0x10000 then [0xE0 + c / 4096, 0x80 + (c / 64) % 64, 0x80 + c % 64]
  else [0xF0 + c / 262144, 0x80 + (c / 4096) % 64, 0x80 + (c / 64) % 64, 0x80 + c % 64]

/-- Encode a Lean string literal as Go bytes (valid UTF-8 by construction). -/
def gs (s : String) : GoStr :=
  s.data.foldr (fun c acc => encChar c.toNat ++ acc) []

/-- A UTF-8 continuation byte (`0x80..0xBF`). -/
def isContB (b : Nat) : Bool := 0x80 ≤ b && b ≤ 0xBF

/-- Valid second byte of a 3-byte sequence, given the lead byte, following the
    acceptance ranges of Go's `unicode/utf8` (excludes overlongs and
    surrogates): lead `0xE0` needs `0xA0..0xBF`, lead `0xED` needs
    `0x80..0x9F`, other 3-byte leads need a plain continuation byte. -/
def valid3Second (b0 b1 : Nat) : Bool :=
  if b0 == 0xE0 then 0xA0 ≤ b1 && b1 ≤ 0xBF
  else if b0 == 0xED then 0x80 ≤ b1 && b1 ≤ 0x9F
  else isContB b1

/-- Valid second byte of a 4-byte sequence, given the lead byte (excludes
    overlongs and code points beyond `U+10FFFF`): lead `0xF0` needs
    `0x90..0xBF`, lead `0xF4` needs `0x80..0x8F`, leads `0xF1..0xF3` need a
    plain continuation byte. -/
def valid4Second (b0 b1 : Nat) : Bool :=
  if b0 == 0xF0 then 0x90 ≤ b1 && b1 ≤ 0xBF
  else if b0 == 0xF4 then 0x80 ≤ b1 && b1 ≤ 0x8F
  else isContB b1

/-- Lead byte of a 2-byte sequence (`0xC2..0xDF`; `0xC0`/`0xC1` are overlong). -/
def isLead2 (b : Nat) : Bool := 0xC2 ≤ b && b ≤ 0xDF

/-- Lead byte of a 3-byte sequence (`0xE0..0xEF`). -/
def isLead3 (b : Nat) : Bool := 0xE0 ≤ b && b ≤ 0xEF

/-- Lead byte of a 4-byte sequence (`0xF0..0xF4`). -/
def isLead4 (b : Nat) : Bool := 0xF0 ≤ b && b ≤ 0xF4

/-- Model of Go's `strings.ToValidUTF8(s, "")`: copy the string, dropping
    every byte that is not part of a valid UTF-8 sequence (the replacement
    string is empty, so each run of invalid bytes simply disappears).
    Decoding follows `utf8.DecodeRuneInString`: on an invalid sequence exactly
    one byte is skipped and decoding restarts at the next byte.
    The extra `fuel` argument makes the recursion structural; every step
    consumes at least one byte, so `fuel = s.length` always suffices. -/
def toValidUTF8F : Nat → GoStr → GoStr
  | _, [] => []
  | 0, _ => []
  | fuel + 1, b :: rest =>
    if b < 0x80 then b :: toValidUTF8F fuel rest
    else if isLead2 b then
      match rest with
      | b1 :: r => if isContB b1 then b :: b1 :: toValidUTF8F fuel r else toValidUTF8F fuel rest
      | [] => []
    else if isLead3 b then
      match rest with
      | b1 :: b2 :: r =>
        if valid3Second b b1 && isContB b2 then b :: b1 :: b2 :: toValidUTF8F fuel r
        else toValidUTF8F fuel rest
      | r => toValidUTF8F fuel r
    else if isLead4 b then
      match rest with
      | b1 :: b2 :: b3 :: r =>
        if valid4Second b b1 && isContB b2 && isContB b3 then
          b :: b1 :: b2 :: b3 :: toValidUTF8F fuel r
        else toValidUTF8F fuel rest
      | r => toValidUTF8F fuel r
    else toValidUTF8F fuel rest

/-- `strings.ToValidUTF8(s, "")` itself. -/
def toValidUTF8 (s : GoStr) : GoStr := toValidUTF8F s.length s

/-- Model of Go's `[]rune(s)` conversion: decode UTF-8, one `U+FFFD` per
    invalid byte. -/
def utf8Runes : GoStr → List Nat
  | [] => []
  | b :: rest =>
    if b < 0x80 then b :: utf8Runes rest
    else if isLead2 b then
      match rest with
      | b1 :: r =>
        if isContB b1 then ((b - 0xC0) * 64 + (b1 - 0x80)) :: utf8Runes r
        else 0xFFFD :: utf8Runes (b1 :: r)
      | [] => [0xFFFD]
    else if isLead3 b then
      match rest with
      | b1 :: b2 :: r =>
        if valid3Second b b1 && isContB b2 then
          ((b - 0xE0) * 4096 + (b1 - 0x80) * 64 + (b2 - 0x80)) :: utf8Runes r
        else 0xFFFD :: utf8Runes (b1 :: b2 :: r)
      | r => 0xFFFD :: utf8Runes r
    else if isLead4 b then
      match rest with
      | b1 :: b2 :: b3 :: r =>
        if valid4Second b b1 && isContB b2 && isContB b3 then
          ((b - 0xF0) * 262144 + (b1 - 0x80) * 4096 + (b2 - 0x80) * 64 + (b3 - 0x80)) ::
            utf8Runes r
        else 0xFFFD :: utf8Runes (b1 :: b2 :: b3 :: r)
      | r => 0xFFFD :: utf8Runes r
    else 0xFFFD :: utf8Runes rest

/-- Model of Go's `string(rs)` for a rune slice. -/
def encRunes (rs : List Nat) : GoStr := rs.flatMap encChar

/-- The crawler's `safeUTF8` (`web_crawler.go:35`):
    `strings.ToValidUTF8(s, "")`. -/
def safeUTF8 (s : GoStr) : GoStr := toValidUTF8 s

/-- A byte string that is entirely valid UTF-8: a concatenation of valid
    1-, 2-, 3- and 4-byte sequences (same acceptance ranges as
    `toValidUTF8F`, i.e. those of Go's `unicode/utf8`). -/
inductive ValidUTF8 : GoStr → Prop
  | nil : ValidUTF8 []
  | ascii {b : Nat} {r : GoStr} : b < 0x80 → ValidUTF8 r → ValidUTF8 (b :: r)
  | two {b b1 : Nat} {r : GoStr} : isLead2 b = true → isContB b1 = true →
      ValidUTF8 r → ValidUTF8 (b :: b1 :: r)
  | three {b b1 b2 : Nat} {r : GoStr} : isLead3 b = true → valid3Second b b1 = true →
      isContB b2 = true → ValidUTF8 r → ValidUTF8 (b :: b1 :: b2 :: r)
  | four {b b1 b2 b3 : Nat} {r : GoStr} : isLead4 b = true → valid4Second b b1 = true →
      isContB b2 = true → isContB b3 = true → ValidUTF8 r →
      ValidUTF8 (b :: b1 :: b2 :: b3 :: r)

/-- Byte-class facts: the four lead classes and ASCII are mutually
    exclusive. -/
theorem isLead2_not_lt (b : Nat) (h : isLead2 b = true) : ¬ b < 0x80 := by
  simp only [isLead2, Bool.and_eq_true, decide_eq_true_eq] at h
  omega

theorem isLead3_not_lt (b : Nat) (h : isLead3 b = true) : ¬ b < 0x80 := by
  simp only [isLead3, Bool.and_eq_true, decide_eq_true_eq] at h
  omega

theorem isLead4_not_lt (b : Nat) (h : isLead4 b = true) : ¬ b < 0x80 := by
  simp only [isLead4, Bool.and_eq_true, decide_eq_true_eq] at h
  omega

theorem isLead3_not_lead2 (b : Nat) (h : isLead3 b = true) : isLead2 b = false := by
  simp only [isLead3, Bool.and_eq_true, decide_eq_true_eq] at h
  simp only [isLead2, Bool.and_eq_false_iff, decide_eq_false_iff_not]
  omega

theorem isLead4_not_lead2 (b : Nat) (h : isLead4 b = true) : isLead2 b = false := by
  simp only [isLead4, Bool.and_eq_true, decide_eq_true_eq] at h
  simp only [isLead2, Bool.and_eq_false_iff, decide_eq_false_iff_not]
  omega

theorem isLead4_not_lead3 (b : Nat) (h : isLead4 b = true) : isLead3 b = false := by
  simp only [isLead4, Bool.and_eq_true, decide_eq_true_eq] at h
  simp only [isLead3, Bool.and_eq_false_iff, decide_eq_false_iff_not]
  omega

/-- Fuelled version of: the output of the sanitizer is always valid UTF-8. -/
theorem validUTF8_toValidUTF8F :
    ∀ (fuel : Nat) (s : GoStr), s.length ≤ fuel → ValidUTF8 (toValidUTF8F fuel s) := by
  intro fuel
  induction fuel with
  | zero =>
    intro s hs
    have : s = [] := List.length_eq_zero.mp (Nat.le_zero.mp hs)
    subst this
    exact ValidUTF8.nil
  | succ n ih =>
    intro s hs
    cases s with
    | nil => exact ValidUTF8.nil
    | cons b rest =>
      have hrest : rest.length ≤ n := by simpa using hs
      by_cases hb : b < 0x80
      · simp only [toValidUTF8F, if_pos hb]
        exact ValidUTF8.ascii hb (ih rest hrest)
      · by_cases hl2 : isLead2 b = true
        · cases rest with
          | nil =>
            simp only [toValidUTF8F, if_neg hb, if_pos hl2]
            exact ValidUTF8.nil
          | cons b1 r =>
            have hr : r.length ≤ n := Nat.le_of_succ_le hrest
            by_cases hc : isContB b1 = true
            · simp only [toValidUTF8F, if_neg hb, if_pos hl2, if_pos hc]
              exact ValidUTF8.two hl2 hc (ih r hr)
            · simp only [toValidUTF8F, if_neg hb, if_pos hl2, if_neg hc]
              exact ih (b1 :: r) hrest
        · by_cases hl3 : isLead3 b = true
          · cases rest with
            | nil =>
              simp only [toValidUTF8F, if_neg hb, if_neg hl2, if_pos hl3]
              exact ValidUTF8.nil
            | cons b1 r1 =>
              cases r1 with
              | nil =>
                simp only [toValidUTF8F, if_neg hb, if_neg hl2, if_pos hl3]
                exact ih [b1] hrest
              | cons b2 r =>
                have hr : r.length ≤ n := by
                  simp only [List.length_cons] at hrest
                  omega
                by_cases hc : (valid3Second b b1 && isContB b2) = true
                · simp only [toValidUTF8F, if_neg hb, if_neg hl2, if_pos hl3, if_pos hc]
                  simp only [Bool.and_eq_true] at hc
                  exact ValidUTF8.three hl3 hc.1 hc.2 (ih r hr)
                · simp only [toValidUTF8F, if_neg hb, if_neg hl2, if_pos hl3, if_neg hc]
                  exact ih (b1 :: b2 :: r) hrest
          · by_cases hl4 : isLead4 b = true
            · cases rest with
              | nil =>
                simp only [toValidUTF8F, if_neg hb, if_neg hl2, if_neg hl3, if_pos hl4]
                exact ValidUTF8.nil
              | cons b1 r1 =>
                cases r1 with
                | nil =>
                  simp only [toValidUTF8F, if_neg hb, if_neg hl2, if_neg hl3, if_pos hl4]
                  exact ih [b1] hrest
                | cons b2 r2 =>
                  cases r2 with
                  | nil =>
                    simp only [toValidUTF8F, if_neg hb, if_neg hl2, if_neg hl3, if_pos hl4]
                    exact ih [b1, b2] hrest
                  | cons b3 r =>
                    have hr : r.length ≤ n := by
                      simp only [List.length_cons] at hrest
                      omega
                    by_cases hc : (valid4Second b b1 && isContB b2 && isContB b3) = true
                    · simp only [toValidUTF8F, if_neg hb, if_neg hl2, if_neg hl3,
                        if_pos hl4, if_pos hc]
                      simp only [Bool.and_eq_true] at hc
                      exact ValidUTF8.four hl4 hc.1.1 hc.1.2 hc.2 (ih r hr)
                    · simp only [toValidUTF8F, if_neg hb, if_neg hl2, if_neg hl3,
                        if_pos hl4, if_neg hc]
                      exact ih (b1 :: b2 :: b3 :: r) hrest
            · simp only [toValidUTF8F, if_neg hb, if_neg hl2, if_neg hl3, if_neg hl4]
              exact ih rest hrest

/-- The output of the sanitizer is always valid UTF-8. -/
theorem validUTF8_toValidUTF8 (s : GoStr) : ValidUTF8 (toValidUTF8 s) :=
  validUTF8_toValidUTF8F s.length s le_rfl

/-- Fuelled version of: sanitizing a valid string is the identity. -/
theorem toValidUTF8F_of_valid :
    ∀ (fuel : Nat) (s : GoStr), s.length ≤ fuel → ValidUTF8 s →
      toValidUTF8F fuel s = s := by
  intro fuel
  induction fuel with
  | zero =>
    intro s hs _
    have : s = [] := List.length_eq_zero.mp (Nat.le_zero.mp hs)
    subst this
    rfl
  | succ n ih =>
    intro s hs hv
    cases hv with
    | nil => rfl
    | @ascii b r hb hr =>
      simp only [toValidUTF8F, if_pos hb]
      rw [ih _ (by simpa using hs) hr]
    | @two b b1 r hl2 hc hr =>
      simp only [toValidUTF8F, if_neg (isLead2_not_lt _ hl2), if_pos hl2, if_pos hc]
      rw [ih _ (by simp only [List.length_cons] at hs ⊢; omega) hr]
    | @three b b1 b2 r hl3 h1 h2 hr =>
      have hcond : (valid3Second b b1 && isContB b2) = true := by rw [h1, h2]; rfl
      simp only [toValidUTF8F, if_neg (isLead3_not_lt _ hl3), isLead3_not_lead2 _ hl3,
        Bool.false_eq_true, if_false, if_pos hl3, if_pos hcond]
      rw [ih _ (by simp only [List.length_cons] at hs ⊢; omega) hr]
    | @four b b1 b2 b3 r hl4 h1 h2 h3 hr =>
      have hcond : (valid4Second b b1 && isContB b2 && isContB b3) = true := by
        rw [h1, h2, h3]; rfl
      simp only [toValidUTF8F, if_neg (isLead4_not_lt _ hl4), isLead4_not_lead2 _ hl4,
        isLead4_not_lead3 _ hl4, Bool.false_eq_true, if_false, if_pos hl4, if_pos hcond]
      rw [ih _ (by simp only [List.length_cons] at hs ⊢; omega) hr]

/-- Sanitizing a valid string is the identity (so sanitization is idempotent
    and only strips invalid bytes, never substitutes replacement characters). -/
theorem toValidUTF8_of_valid (s : GoStr) (h : ValidUTF8 s) : toValidUTF8 s = s :=
  toValidUTF8F_of_valid s.length s le_rfl h
/-! ### String helpers (models of the Go `strings` functions the crawler uses) -/

/-- ASCII letter. -/
def isAlphaB (b : Nat) : Bool := (0x41 ≤ b && b ≤ 0x5A) || (0x61 ≤ b && b ≤ 0x7A)

/-- ASCII digit. -/
def isDigitB (b : Nat) : Bool := 0x30 ≤ b && b ≤ 0x39

/-- Unicode white space code points (Go `unicode.IsSpace`). -/
def isSpaceRune (r : Nat) : Bool :=
  [9, 10, 11, 12, 13, 32, 0x85, 0xA0, 0x1680, 0x2000, 0x2001, 0x2002, 0x2003, 0x2004,
    0x2005, 0x2006, 0x2007, 0x2008, 0x2009, 0x200A, 0x2028, 0x2029, 0x202F, 0x205F,
    0x3000].contains r

/-- Model of `utf8.DecodeRuneInString`: the first rune and its byte size;
    `(0xFFFD, 1)` for an invalid opening sequence, `(0xFFFD, 0)` for the empty
    string. -/
def decodeRune : GoStr → Nat × Nat
  | [] => (0xFFFD, 0)
  | b :: rest =>
    if b < 0x80 then (b, 1)
    else if isLead2 b then
      match rest with
      | b1 :: _ => if isContB b1 then ((b - 0xC0) * 64 + (b1 - 0x80), 2) else (0xFFFD, 1)
      | [] => (0xFFFD, 1)
    else if isLead3 b then
      match rest with
      | b1 :: b2 :: _ =>
        if valid3Second b b1 && isContB b2 then
          ((b - 0xE0) * 4096 + (b1 - 0x80) * 64 + (b2 - 0x80), 3)
        else (0xFFFD, 1)
      | _ => (0xFFFD, 1)
    else if isLead4 b then
      match rest with
      | b1 :: b2 :: b3 :: _ =>
        if valid4Second b b1 && isContB b2 && isContB b3 then
          ((b - 0xF0) * 262144 + (b1 - 0x80) * 4096 + (b2 - 0x80) * 64 + (b3 - 0x80), 4)
        else (0xFFFD, 1)
      | _ => (0xFFFD, 1)
    else (0xFFFD, 1)

/-- Model of `utf8.DecodeLastRuneInString`: the last rune and its byte size.
    Scans back at most 4 bytes for a non-continuation byte; the decoded
    sequence must span exactly to the end, else `(0xFFFD, 1)`. -/
def decodeLastRune (s : GoStr) : Nat × Nat :=
  match s.reverse with
  | [] => (0xFFFD, 0)
  | a :: as =>
    let check := fun (seq : GoStr) =>
      let (r, sz) := decodeRune seq
      if sz = seq.length then (r, sz) else (0xFFFD, 1)
    if !isContB a then check [a]
    else match as with
      | b :: bs =>
        if !isContB b then check [b, a]
        else match bs with
          | c :: cs =>
            if !isContB c then check [c, b, a]
            else match cs with
              | d :: _ => if !isContB d then check [d, c, b, a] else (0xFFFD, 1)
              | [] => (0xFFFD, 1)
          | [] => (0xFFFD, 1)
      | [] => (0xFFFD, 1)

/-- Left half of Go `strings.TrimSpace`: drop leading white-space runes
    (an invalid byte decodes to `U+FFFD`, which is not a space, and stops the
    trimming, as in Go's `TrimFunc`). Fuel makes the recursion structural;
    each step drops at least one byte, so `fuel = s.length` suffices. -/
def trimLeftF : Nat → GoStr → GoStr
  | 0, s => s
  | fuel + 1, s =>
    match s with
    | [] => []
    | _ =>
      let (r, n) := decodeRune s
      if isSpaceRune r then trimLeftF fuel (s.drop n) else s

/-- Right half of Go `strings.TrimSpace`: drop trailing white-space runes. -/
def trimRightF : Nat → GoStr → GoStr
  | 0, s => s
  | fuel + 1, s =>
    match s with
    | [] => []
    | _ =>
      let (r, k) := decodeLastRune s
      if isSpaceRune r then trimRightF fuel (s.take (s.length - k)) else s

/-- Go `strings.TrimSpace`. -/
def trimSpace (s : GoStr) : GoStr := trimRightF s.length (trimLeftF s.length s)

/-- Go `strings.Split(s, sep)` for a one-byte separator (the crawler only
    splits on `","`). -/
def splitByte (sep : Nat) : GoStr → List GoStr
  | [] => [[]]
  | b :: rest =>
    match splitByte sep rest with
    | [] => [[b]]
    | h :: t => if b == sep then [] :: h :: t else (b :: h) :: t

/-- Go `strings.HasSuffix(s, suffix)`. -/
def hasSuffix (s suffix : GoStr) : Bool := List.isSuffixOf suffix s

/-- Go `strings.Contains(s, sub)`. -/
def containsSub : GoStr → GoStr → Bool
  | [], sub => List.isPrefixOf sub []
  | b :: rest, sub => List.isPrefixOf sub (b :: rest) || containsSub rest sub

/-- ASCII-only lower-casing. Go's `strings.ToLower` also folds non-ASCII
    letters, but the crawler only lower-cases `rel` attribute values to look
    for the ASCII substring "icon" (and `url.Parse` lower-cases schemes, which
    are ASCII by the URL grammar); no non-ASCII fold can produce those ASCII
    letters adjacently, so the ASCII model is observationally equivalent for
    every use in the code. -/
def asciiLower (s : GoStr) : GoStr :=
  s.map (fun b => if 0x41 ≤ b && b ≤ 0x5A then b + 0x20 else b)

/-- Go `strings.Cut(s, sep)` for a one-byte separator:
    `(before, after, found)`. -/
def cutByte (sep : Nat) : GoStr → GoStr × GoStr × Bool
  | [] => ([], [], false)
  | b :: rest =>
    if b == sep then ([], rest, true)
    else
      let (pre, post, f) := cutByte sep rest
      (b :: pre, post, f)

/-- Index of the first occurrence of a byte. -/
def idxByte (c : Nat) (s : GoStr) : Option Nat :=
  if s.contains c then some (List.indexOf c s) else none

/-- Index of the last occurrence of a byte. -/
def lastIdxByte (c : Nat) (s : GoStr) : Option Nat :=
  if s.contains c then some (s.length - 1 - List.indexOf c s.reverse) else none
/-! ### Model of Go `net/url` at the interface the crawler uses

The crawler uses `url.Parse`, `URL.IsAbs`, `URL.ResolveReference`,
`URL.Hostname`, `URL.String`, and assignment to `URL.Fragment`. The model
reproduces `net/url` behaviour for the URL shapes the crawler handles, with
these simplifications (documented here once): percent-escape decoding and
re-encoding are not modelled (inputs in this development are escape-free, for
which both are the identity), userinfo is dropped after splitting it off, and
`ForceQuery`/`OmitHost` corner flags are not modelled. -/

/-- Go `url.URL` (the fields the crawler observes). `opaqueData` is Go's
    `URL.Opaque` (rootless `scheme:data` forms such as `javascript:void(0)`
    or `mailto:a@b`). -/
structure GoURL where
  scheme : GoStr
  opaqueData : GoStr
  host : GoStr
  path : GoStr
  query : GoStr
  fragment : GoStr
deriving DecidableEq

/-- Go `URL.IsAbs`: a URL is absolute iff it has a scheme. -/
def GoURL.isAbs (u : GoURL) : Bool := u.scheme ≠ []

/-- `stringContainsCTLByte` from `net/url`: `url.Parse` rejects any URL that
    contains an ASCII control byte. -/
def containsCTL (s : GoStr) : Bool := s.any (fun b => b < 0x20 || b == 0x7F)

/-- Result of `getScheme` from `net/url`. -/
inductive SchemeRes
  | noScheme
  | schemeErr
  | found (scheme rest : GoStr)

/-- `getScheme` from `net/url`: scan for `letter (letter|digit|+|-|.)* :`;
    a leading digit or `+ - .` means "no scheme"; a colon at position 0 is the
    "missing protocol scheme" error; any other byte stops the scan with no
    scheme. -/
def getSchemeAux : GoStr → Bool → GoStr → SchemeRes
  | [], _, _ => .noScheme
  | c :: rest, first, acc =>
    if isAlphaB c then getSchemeAux rest false (c :: acc)
    else if isDigitB c || c == 43 || c == 45 || c == 46 then
      if first then .noScheme else getSchemeAux rest false (c :: acc)
    else if c == 58 then
      if first then .schemeErr else .found acc.reverse rest
    else .noScheme

/-- `validOptionalPort` from `net/url`: empty, or `:` followed by digits. -/
def validOptionalPort : GoStr → Bool
  | [] => true
  | 58 :: digits => digits.all isDigitB
  | _ => false

/-- Bytes `url.Parse` accepts unescaped in a host (the `encodeHost` class of
    `shouldEscape`: unreserved, sub-delims, and `: [ ] < > "`); non-ASCII
    bytes pass through unchecked, as in Go's `unescape`. -/
def hostByteOK (b : Nat) : Bool :=
  isAlphaB b || isDigitB b ||
    [45, 46, 95, 126, 33, 36, 38, 39, 40, 41, 42, 43, 44, 59, 61, 58, 91, 93,
      60, 62, 34].contains b ||
    0x80 ≤ b

/-- `parseHost` from `net/url`: validate the port suffix (after the last `:`
    outside brackets) and every host byte. -/
def parseHost (h : GoStr) : Option GoStr :=
  let portOK :=
    if h.head? = some 91 then
      match lastIdxByte 93 h with
      | none => false
      | some i => validOptionalPort (h.drop (i + 1))
    else
      match lastIdxByte 58 h with
      | none => true
      | some i => validOptionalPort (h.drop i)
  if portOK && h.all hostByteOK then some h else none

/-- `parseAuthority` from `net/url`, with userinfo split off at the last `@`
    and dropped (the crawler never reads `URL.User`). -/
def parseAuthority (authority : GoStr) : Option GoStr :=
  match lastIdxByte 64 authority with
  | some i => parseHost (authority.drop (i + 1))
  | none => parseHost authority

/-- The fragment-free part of `url.Parse` (Go's internal `parse` with
    `viaRequest = false`). -/
def parseNoFrag (s : GoStr) : Option GoURL :=
  match getSchemeAux s true [] with
  | .schemeErr => none
  | res =>
    let schemeRaw := match res with
      | .found sch _ => sch
      | _ => []
    let rest0 := match res with
      | .found _ r => r
      | _ => s
    let scheme := asciiLower schemeRaw
    let (rest1, query, _) := cutByte 63 rest0
    if rest1.head? ≠ some 47 ∧ scheme ≠ [] then
      some ⟨scheme, rest1, [], [], query, []⟩
    else if rest1.head? ≠ some 47 ∧ scheme = [] ∧
        (let (seg, _, _) := cutByte 47 rest1; seg.contains 58) then
      none
    else if (scheme ≠ [] ∨ ¬ List.isPrefixOf [47, 47, 47] rest1) ∧
        List.isPrefixOf [47, 47] rest1 then
      let after := rest1.drop 2
      let (authority, path) :=
        match idxByte 47 after with
        | some i => (after.take i, after.drop i)
        | none => (after, [])
      match parseAuthority authority with
      | none => none
      | some host => some ⟨scheme, [], host, path, query, []⟩
    else
      some ⟨scheme, [], [], rest1, query, []⟩

/-- Model of Go `url.Parse`: reject control bytes, split the fragment at the
    first `#`, parse the rest. -/
def urlParse (raw : GoStr) : Option GoURL :=
  if containsCTL raw then none
  else
    let (u, frag, _) := cutByte 35 raw
    match parseNoFrag u with
    | none => none
    | some url => some { url with fragment := frag }

/-- `resolvePath` from `net/url`: merge a reference path with a base path and
    remove `.` / `..` segments (RFC 3986 §5.2.4, as Go implements it). -/
def resolvePath (base ref : GoStr) : GoStr :=
  let full :=
    if ref = [] then base
    else if ref.head? = some 47 then ref
    else
      match lastIdxByte 47 base with
      | some i => base.take (i + 1) ++ ref
      | none => ref
  if full = [] then []
  else
    let segs := splitByte 47 full
    let stack := segs.foldl
      (fun acc e =>
        if e = [46] then acc
        else if e = [46, 46] then acc.dropLast
        else acc ++ [e]) []
    let trailing :=
      match segs.getLast? with
      | some e => if e = [46] ∨ e = [46, 46] then [47] else []
      | none => []
    let r := 47 :: (List.intercalate [47] stack ++ trailing)
    match r with
    | 47 :: 47 :: rest => 47 :: rest
    | _ => r

/-- Go `URL.ResolveReference` (without `User`/`ForceQuery`, which the crawler
    never sets). -/
def resolveReference (u ref : GoURL) : GoURL :=
  let scheme := if ref.scheme = [] then u.scheme else ref.scheme
  if ref.scheme ≠ [] ∨ ref.host ≠ [] then
    { scheme, opaqueData := ref.opaqueData, host := ref.host,
      path := resolvePath ref.path [], query := ref.query, fragment := ref.fragment }
  else if ref.opaqueData ≠ [] then
    { scheme, opaqueData := ref.opaqueData, host := [], path := [],
      query := ref.query, fragment := ref.fragment }
  else
    let query := if ref.path = [] ∧ ref.query = [] then u.query else ref.query
    let fragment :=
      if ref.path = [] ∧ ref.query = [] ∧ ref.fragment = [] then u.fragment
      else ref.fragment
    { scheme, opaqueData := [], host := u.host,
      path := resolvePath u.path ref.path, query, fragment }

/-- Go `URL.String` (without userinfo / `ForceQuery` / `OmitHost`). -/
def urlString (u : GoURL) : GoStr :=
  let schemePart := if u.scheme ≠ [] then u.scheme ++ [58] else []
  let mainPart :=
    if u.opaqueData ≠ [] then u.opaqueData
    else
      let auth :=
        if u.scheme ≠ [] ∨ u.host ≠ [] then
          (if u.host ≠ [] ∨ u.path ≠ [] then [47, 47] else []) ++ u.host
        else []
      let slash :=
        if u.path ≠ [] ∧ u.path.head? ≠ some 47 ∧ u.host ≠ [] then [47] else []
      let dotSlash :=
        if schemePart ++ auth ++ slash = [] ∧
            (let (seg, _, _) := cutByte 47 u.path; seg.contains 58) then [46, 47]
        else []
      auth ++ slash ++ dotSlash ++ u.path
  let queryPart := if u.query ≠ [] then 63 :: u.query else []
  let fragPart := if u.fragment ≠ [] then 35 :: u.fragment else []
  schemePart ++ mainPart ++ queryPart ++ fragPart

/-- Go `URL.Hostname`: the host with a valid `:port` suffix removed and IPv6
    brackets stripped (`splitHostPort`). -/
def hostnameOf (u : GoURL) : GoStr :=
  let hp :=
    match lastIdxByte 58 u.host with
    | some i => if validOptionalPort (u.host.drop i) then u.host.take i else u.host
    | none => u.host
  if hp.head? = some 91 ∧ hp.getLast? = some 93 then (hp.drop 1).dropLast else hp

/-! ### The crawler's own URL helpers (`web_crawler.go:68-98`) -/

/-- `isAllowedDomain` (`web_crawler.go:68`): an empty allow-list admits
    everything; otherwise the hostname must end with some entry. -/
def isAllowedDomain (u : GoURL) (allowedDomains : List GoStr) : Bool :=
  if allowedDomains.length = 0 then true
  else allowedDomains.any (fun d => hasSuffix (hostnameOf u) d)

/-- The error cases of `normalizeURL`: `fmt.Errorf("empty href")` and a
    `url.Parse` error (both `InvalidURL` in the specification's taxonomy),
    and `fmt.Errorf("unsupported scheme")`. -/
inductive NormErr
  | invalidURL
  | unsupportedScheme
deriving DecidableEq

instance {e a : Type} [DecidableEq e] [DecidableEq a] : DecidableEq (Except e a) := fun x y =>
  match x, y with
  | .error u, .error v =>
    if h : u = v then isTrue (by rw [h]) else isFalse (by intro hc; cases hc; exact h rfl)
  | .ok u, .ok v =>
    if h : u = v then isTrue (by rw [h]) else isFalse (by intro hc; cases hc; exact h rfl)
  | .error _, .ok _ => isFalse (by intro hc; cases hc)
  | .ok _, .error _ => isFalse (by intro hc; cases hc)

/-- `normalizeURL` (`web_crawler.go:81`): trim, reject empty, parse, resolve
    a relative reference against the base, reject non-http(s) schemes, clear
    the fragment. -/
def normalizeURL (base : GoURL) (href : GoStr) : Except NormErr GoURL :=
  let href := trimSpace href
  if href = [] then .error .invalidURL
  else
    match urlParse href with
    | none => .error .invalidURL
    | some parsed =>
      let parsed := if ¬ parsed.isAbs then resolveReference base parsed else parsed
      if parsed.scheme ≠ gs "http" ∧ parsed.scheme ≠ gs "https" then
        .error .unsupportedScheme
      else .ok { parsed with fragment := [] }

example : gs "ab" = [97, 98] := by decide

example : urlParse (gs "https://a.com/x") =
    some ⟨gs "https", [], gs "a.com", gs "/x", [], []⟩ := by decide

example :
    (urlParse (gs "https://a.com/x")).map
      (fun base => normalizeURL base (gs "/y")) =
    some (.ok ⟨gs "https", [], gs "a.com", gs "/y", [], []⟩) := by decide

example :
    (urlParse (gs "https://a.com/x")).map
      (fun base => (normalizeURL base (gs "javascript:void(0)"))) =
    some (.error .unsupportedScheme) := by decide
/-! ### Configuration constants (`web_crawler.go:24-31`) -/

def MaxPagesPerRun : Nat := 500
def MaxDepth : Nat := 5
def MaxTextChars : Nat := 70000

/-! ### Extraction (`web_crawler.go:178-305`) -/

/-- The crawler's `Page` record (`web_crawler.go:42-54`). `CrawlTime`
    (wall-clock time of extraction) is outside the model. -/
structure Page where
  url : GoStr
  title : GoStr
  snippet : GoStr
  favicon : GoStr
  siteName : GoStr
  image : GoStr
  text : GoStr
  links : List GoStr
deriving DecidableEq

/-- A parsed HTML document, modelled at the exact goquery query boundary
    `extractPage` uses (the spec treats the selector engine as an external
    collaborator). Each field is the result of one of the queries the code
    performs, in document order where a list is involved:
    `titleText` = `Find("title").First().Text()`;
    the five `Option` fields are `Attr("content")` of the corresponding meta
    selector (`none` = no element or no such attribute);
    `pTexts` = `Text()` of each `p` element;
    `bodyText` = `Find("body").Text()`;
    `linkTags` = (`rel`, `href`) of each `link` element (missing attributes
    read as `""`, as `s.Attr` with the `ok` flag discarded);
    `imgSrcs` = the `src` attribute of each `img` element;
    `aHrefs` = the `href` of each `a[href]` element. -/
structure HtmlDoc where
  titleText : GoStr
  metaDescription : Option GoStr
  ogDescription : Option GoStr
  ogSiteName : Option GoStr
  ogImage : Option GoStr
  twitterImage : Option GoStr
  pTexts : List GoStr
  bodyText : GoStr
  linkTags : List (GoStr × GoStr)
  imgSrcs : List (Option GoStr)
  aHrefs : List GoStr
deriving DecidableEq

/-- Go's rune-safe truncation pattern (`web_crawler.go:211-218,280-285`):
    `runes := []rune(s); if len(runes) > n { s = string(runes[:n]) }`. -/
def runeTruncate (n : Nat) (s : GoStr) : GoStr :=
  let runes := utf8Runes s
  if runes.length > n then encRunes (runes.take n) else s

/-- The snippet cascade of `extractPage` (`web_crawler.go:185-219`): meta
    description, else og:description, else the first `<p>` whose trimmed text
    has Go `len` (bytes) above 40, else the first 300 runes of the trimmed
    body text. -/
def extractSnippet (doc : HtmlDoc) : GoStr :=
  let s1 :=
    match doc.metaDescription with
    | some d => trimSpace d
    | none => []
  let s2 :=
    if s1 = [] then
      match doc.ogDescription with
      | some og => trimSpace og
      | none => []
    else s1
  let s3 :=
    if s2 = [] then
      doc.pTexts.foldl
        (fun acc t =>
          let txt := trimSpace t
          if txt.length > 40 ∧ acc = [] then txt else acc) []
    else s2
  if s3 = [] then runeTruncate 300 (trimSpace doc.bodyText) else s3

/-- The favicon candidate of `extractPage` (`web_crawler.go:222-229`): the
    `href` of the last `<link>` whose `rel` contains "icon"
    (case-insensitively), or `""`. -/
def extractFavicon0 (doc : HtmlDoc) : GoStr :=
  doc.linkTags.foldl
    (fun acc rh => if containsSub (asciiLower rh.1) (gs "icon") then rh.2 else acc) []

/-- The preview-image candidate of `extractPage` (`web_crawler.go:248-271`):
    og:image, else twitter:image, else the first `<img>` whose `src` is
    present, non-empty and does not contain "logo". -/
def extractImageCand (doc : HtmlDoc) : GoStr :=
  let i1 :=
    match doc.ogImage with
    | some x => x
    | none => []
  let i2 :=
    if i1 = [] then
      match doc.twitterImage with
      | some x => x
      | none => []
    else i1
  if i2 = [] then
    doc.imgSrcs.foldl
      (fun acc src? =>
        if acc ≠ [] then acc
        else
          match src? with
          | some src =>
            if src = [] then acc
            else if containsSub src (gs "logo") then acc
            else src
          | none => acc) []
  else i2

/-- `extractPage` (`web_crawler.go:178`). Returns `none` exactly where the Go
    code panics from a nil `*url.URL`: `fu.String()` when a non-empty favicon
    candidate fails `url.Parse`; `parsedURL.ResolveReference` and
    `parsedURL.Hostname()` when the page URL itself fails `url.Parse`; and
    the same two spots for the preview-image candidate. -/
def extractPage (u : GoStr) (doc : HtmlDoc) : Option Page :=
  let parsedURL? := urlParse u
  let favicon0 := extractFavicon0 doc
  let faviconR : Option GoStr :=
    if favicon0 ≠ [] then
      match urlParse favicon0 with
      | some fu =>
        if ¬ fu.isAbs then
          match parsedURL? with
          | some pu => some (urlString (resolveReference pu fu))
          | none => none
        else some (urlString fu)
      | none => none
    else some []
  match faviconR with
  | none => none
  | some favicon =>
    match parsedURL? with
    | none => none
    | some pu =>
      let siteName :=
        match doc.ogSiteName with
        | some sn => if trimSpace sn ≠ [] then sn else hostnameOf pu
        | none => hostnameOf pu
      let i3 := extractImageCand doc
      let imageR : Option GoStr :=
        if i3 ≠ [] then
          match urlParse i3 with
          | some iu =>
            if ¬ iu.isAbs then some (urlString (resolveReference pu iu))
            else some (urlString iu)
          | none => none
        else some []
      match imageR with
      | none => none
      | some image =>
        some
          { url := u, title := trimSpace doc.titleText, snippet := extractSnippet doc,
            favicon, siteName, image,
            text := runeTruncate MaxTextChars (trimSpace doc.bodyText),
            links := doc.aHrefs.map safeUTF8 }

/-- The sanitization block of `upsertPage` (`web_crawler.go:123-132`): apply
    `safeUTF8` to the seven scalar string fields. (`Links` is not touched
    there.) -/
def sanitizePage (p : Page) : Page :=
  { url := safeUTF8 p.url, title := safeUTF8 p.title, snippet := safeUTF8 p.snippet,
    favicon := safeUTF8 p.favicon, siteName := safeUTF8 p.siteName,
    image := safeUTF8 p.image, text := safeUTF8 p.text, links := p.links }

/-- The snippet fallback chain as the specification words it — amended only
    in that the 40-character threshold for a `<p>` is counted in bytes (Go
    `len`), as the code does: (1) the `meta[name=description]` content if
    non-empty after trimming, else (2) the `meta[property=og:description]`
    content if non-empty after trimming, else (3) the trimmed text of the
    first `<p>` whose trimmed text exceeds 40 bytes, else (4) the first 300
    characters of the trimmed body text (in characters, not bytes). -/
def snippetSpec (doc : HtmlDoc) : GoStr :=
  let d := trimSpace (doc.metaDescription.getD [])
  if d ≠ [] then d
  else
    let og := trimSpace (doc.ogDescription.getD [])
    if og ≠ [] then og
    else
      match doc.pTexts.find? (fun t => (trimSpace t).length > 40) with
      | some t => trimSpace t
      | none => runeTruncate 300 (trimSpace doc.bodyText)
/-! ### The crawl engine (`crawlSeeds`, `web_crawler.go:309-392`) -/

/-- A frontier item (the local `QueueItem` type of `crawlSeeds`). -/
structure QItem where
  url : GoStr
  depth : Nat
deriving DecidableEq

/-- Outcome of `pageExists` as the caller observes it (`web_crawler.go:141`):
    document found (`(true, nil)`), not found (`(false, nil)`), or a lookup
    error (`(false, err)`). -/
inductive ExistsRes
  | found
  | notFound
  | lookupErr
deriving DecidableEq

/-- The crawl run's environment: the persistence store and the fetcher,
    modelled as response functions keyed by the requested URL (the spec
    treats both as external collaborators specified at their interfaces).
    `fetch u = none` is any `fetchPage` error (transport error, non-HTML
    content type, or an unparsable body); `upsertErr u` says whether the
    MongoDB `UpdateOne` for that page returns an error. -/
structure CrawlEnv where
  existsQ : GoStr → ExistsRes
  fetch : GoStr → Option HtmlDoc
  upsertErr : GoStr → Bool

/-- A run configuration: environment, parsed allow-list, and the two budget
    knobs (`MaxPagesPerRun` and `MaxDepth` in the source; parameters here so
    that the specification's budget examples are statable). -/
structure CrawlCfg where
  env : CrawlEnv
  allowed : List GoStr
  maxPages : Nat
  maxDepth : Nat

/-- Observable events of one loop iteration, in program order.
    `fetching u` is the `log.Printf("Fetching: %s", ...)` line that precedes
    every fetch attempt; `upsert p errored depth` records the call to
    `upsertPage` with the sanitized page, whether the store errored, and the
    depth of the frontier item being processed; `enqueue` records an append
    to the frontier queue. -/
inductive Ev
  | skipVisited (url : GoStr)
  | skipParse (url : GoStr)
  | skipDomain (url : GoStr)
  | skipExists (url : GoStr)
  | fetching (url : GoStr)
  | fetchErr (url : GoStr)
  | upsert (p : Page) (errored : Bool) (depth : Nat)
  | enqueue (url : GoStr) (depth : Nat)
deriving DecidableEq

/-- The crawl engine's state: the frontier queue, the visited set, the
    `pagesCrawled` counter, and a crash flag (a Go panic in `extractPage`
    aborts the whole process). -/
structure CrawlState where
  queue : List QItem
  visited : List GoStr
  pages : Nat
  crashed : Bool
deriving DecidableEq

/-- The link-enqueueing loop (`web_crawler.go:379-386`): normalize each raw
    link against the current page's URL, skip normalization failures, skip
    URLs already in `visited`, and enqueue the rest at the given depth. -/
def linkEnqueues (pu : GoURL) (visited : List GoStr) (links : List GoStr)
    (d : Nat) : List QItem :=
  links.filterMap (fun href =>
    match normalizeURL pu href with
    | .ok n =>
      let s := urlString n
      if visited.contains s then none else some ⟨s, d⟩
    | .error _ => none)

/-- One iteration of the `crawlSeeds` loop (`web_crawler.go:342-389`),
    returning the successor state and the events of this iteration:
    dequeue, visited check, `url.Parse`, domain policy, existence check
    (skipping only on `err == nil && exists`), fetch, extract (a `none` from
    `extractPage` is a panic and crashes the run), sanitize-and-upsert with
    the upsert error discarded, increment `pagesCrawled`, and enqueue links
    when `depth < maxDepth`. On a finished or crashed state the step is the
    identity with no events. -/
def crawlStep (c : CrawlCfg) (st : CrawlState) : CrawlState × List Ev :=
  if st.crashed then (st, [])
  else
    match st.queue with
    | [] => (st, [])
    | item :: rest =>
      if c.maxPages ≤ st.pages then (st, [])
      else if st.visited.contains item.url then
        ({ st with queue := rest }, [.skipVisited item.url])
      else
        let vis := item.url :: st.visited
        match urlParse item.url with
        | none => ({ st with queue := rest, visited := vis }, [.skipParse item.url])
        | some pu =>
          if ¬ isAllowedDomain pu c.allowed then
            ({ st with queue := rest, visited := vis }, [.skipDomain item.url])
          else
            match c.env.existsQ item.url with
            | .found =>
              ({ st with queue := rest, visited := vis }, [.skipExists item.url])
            | _ =>
              match c.env.fetch item.url with
              | none =>
                ({ st with queue := rest, visited := vis },
                  [.fetching item.url, .fetchErr item.url])
              | some doc =>
                match extractPage item.url doc with
                | none =>
                  ({ st with queue := rest, visited := vis, crashed := true },
                    [.fetching item.url])
                | some page =>
                  let sp := sanitizePage page
                  let eb := c.env.upsertErr item.url
                  let newItems :=
                    if item.depth < c.maxDepth then
                      linkEnqueues pu vis page.links (item.depth + 1)
                    else []
                  (⟨rest ++ newItems, vis, st.pages + 1, false⟩,
                    [.fetching item.url, .upsert sp eb item.depth] ++
                      newItems.map (fun q => .enqueue q.url q.depth))

/-- Iterate the crawl loop, accumulating the event trace. -/
def crawlRun (c : CrawlCfg) : Nat → CrawlState → CrawlState × List Ev
  | 0, st => (st, [])
  | n + 1, st =>
    let r1 := crawlStep c st
    let r2 := crawlRun c n r1.1
    (r2.1, r1.2 ++ r2.2)

/-- The loop's stopping condition (`for len(queue) > 0 && pagesCrawled <
    MaxPagesPerRun`), plus the crash case. -/
def isDone (c : CrawlCfg) (st : CrawlState) : Bool :=
  st.crashed || st.queue.isEmpty || decide (c.maxPages ≤ st.pages)

/-- Seed preparation (`web_crawler.go:315,333-338`): split `SEED_URLS` on
    commas, trim each entry, drop empties, enqueue at depth 0. -/
def seedQueue (seedsEnv : GoStr) : List QItem :=
  (splitByte 44 seedsEnv).filterMap (fun s =>
    let t := trimSpace s
    if t = [] then none else some ⟨t, 0⟩)

/-- Allow-list preparation (`web_crawler.go:317-323`): empty env means no
    restriction; otherwise split on commas and trim each entry (empty entries
    are kept, as in the source). -/
def allowedOf (allowedEnv : GoStr) : List GoStr :=
  if allowedEnv = [] then [] else (splitByte 44 allowedEnv).map trimSpace

/-- The state `crawlSeeds` starts its loop from. -/
def initState (seedsEnv : GoStr) : CrawlState :=
  ⟨seedQueue seedsEnv, [], 0, false⟩

/-- The bootstrap guard of `crawlSeeds` (`web_crawler.go:311-314`): an empty
    `SEED_URLS` is the only error the function itself returns. -/
def crawlSeedsGuard (seedsEnv : GoStr) : Except GoStr Unit :=
  if seedsEnv = [] then .error (gs "SEED_URLS not set") else .ok ()

/-- How many times a given URL was fetched (the `Fetching:` log lines). -/
def countFetching (evs : List Ev) (u : GoStr) : Nat :=
  evs.countP (fun e =>
    match e with
    | .fetching v => v == u
    | _ => false)

/-- How many times a given URL was appended to the frontier queue by the
    link-enqueueing loop. -/
def countEnqueue (evs : List Ev) (u : GoStr) : Nat :=
  evs.countP (fun e =>
    match e with
    | .enqueue v _ => v == u
    | _ => false)

/-- How many `upsertPage` calls the trace records. -/
def countUpserts (evs : List Ev) : Nat :=
  evs.countP (fun e =>
    match e with
    | .upsert _ _ _ => true
    | _ => false)

/-- Projections of a successful extraction: the URL is stored verbatim, the
    links are the raw hrefs passed through `safeUTF8`, and snippet / text /
    title come from their cascades. -/
theorem extractPage_fields (u : GoStr) (doc : HtmlDoc) (p : Page)
    (h : extractPage u doc = some p) :
    p.url = u ∧ p.title = trimSpace doc.titleText ∧ p.snippet = extractSnippet doc ∧
    p.text = runeTruncate MaxTextChars (trimSpace doc.bodyText) ∧
    p.links = doc.aHrefs.map safeUTF8 := by
  simp only [extractPage] at h
  repeat' split at h
  all_goals
    first
    | exact Option.noConfusion h
    | (simp only [Option.some.injEq] at h
       subst h
       exact ⟨rfl, rfl, rfl, rfl, rfl⟩)

/-- A fold that keeps the first non-empty value ignores later elements. -/
theorem foldFirstLong_keep (l : List GoStr) :
    ∀ acc : GoStr, acc ≠ [] →
      l.foldl
        (fun acc t =>
          let txt := trimSpace t
          if txt.length > 40 ∧ acc = [] then txt else acc) acc = acc := by
  induction l with
  | nil => intro acc _; rfl
  | cons t ts ih =>
    intro acc hacc
    simp only [List.foldl_cons]
    rw [if_neg (by simp [hacc])]
    exact ih acc hacc

/-- The `Each`-style accumulator loop over `<p>` texts computes the trimmed
    text of the first `<p>` whose trimmed text is longer than 40 bytes. -/
theorem foldFirstLong_eq_find (l : List GoStr) :
    l.foldl
      (fun acc t =>
        let txt := trimSpace t
        if txt.length > 40 ∧ acc = [] then txt else acc) [] =
    (match l.find? (fun t => (trimSpace t).length > 40) with
     | some t => trimSpace t
     | none => []) := by
  induction l with
  | nil => rfl
  | cons t ts ih =>
    simp only [List.foldl_cons]
    by_cases h : (trimSpace t).length > 40
    · rw [if_pos (by simp [h])]
      rw [List.find?_cons_of_pos _ (by simpa using h)]
      exact foldFirstLong_keep ts (trimSpace t)
        (List.ne_nil_of_length_pos (by omega))
    · rw [if_neg (by simp [h])]
      rw [List.find?_cons_of_neg _ (by simpa using h)]
      exact ih

/-- `trimSpace` of the empty string. -/
theorem trimSpace_nil : trimSpace [] = [] := rfl

/-- Folding the guarded-if form of the last two snippet stages into the
    specification's match form. -/
theorem ifFind_eq (l : List GoStr) (fallback : GoStr) :
    (if (match l.find? (fun t => (trimSpace t).length > 40) with
         | some t => trimSpace t
         | none => ([] : GoStr)) = [] then fallback
     else
       match l.find? (fun t => (trimSpace t).length > 40) with
       | some t => trimSpace t
       | none => []) =
    (match l.find? (fun t => (trimSpace t).length > 40) with
     | some t => trimSpace t
     | none => fallback) := by
  cases hf : l.find? (fun t => (trimSpace t).length > 40) with
  | none => simp
  | some t =>
    have ht := List.find?_some hf
    simp only [decide_eq_true_eq] at ht
    simp [List.ne_nil_of_length_pos (show 0 < (trimSpace t).length by omega)]

/-- The code's snippet cascade coincides with the specification's cascade
    (with the `<p>` threshold in bytes). -/
theorem extractSnippet_eq_snippetSpec (doc : HtmlDoc) :
    extractSnippet doc = snippetSpec doc := by
  unfold extractSnippet snippetSpec
  cases hmd : doc.metaDescription with
  | some d =>
    by_cases h1 : trimSpace d = []
    · simp only [Option.getD_some, h1]
      cases hog : doc.ogDescription with
      | some og =>
        by_cases h2 : trimSpace og = []
        · simp [h2, foldFirstLong_eq_find, ifFind_eq]
        · simp [h2]
      | none => simp [foldFirstLong_eq_find, ifFind_eq, trimSpace_nil]
    · simp [h1]
  | none =>
    simp only [Option.getD_none]
    cases hog : doc.ogDescription with
    | some og =>
      by_cases h2 : trimSpace og = []
      · simp [h2, foldFirstLong_eq_find, ifFind_eq, trimSpace_nil]
      · simp [h2, trimSpace_nil]
    | none => simp [foldFirstLong_eq_find, ifFind_eq, trimSpace_nil]
/-! ### Engine lemmas -/

/-- A canonical URL string: the rendering of a parsed URL whose scheme is
    exactly http or https and whose fragment is empty. -/
def canonicalURL (s : GoStr) : Prop :=
  ∃ un : GoURL, s = urlString un ∧
    (un.scheme = gs "http" ∨ un.scheme = gs "https") ∧ un.fragment = []

/-- Successful normalization yields an http(s) URL with the fragment
    cleared. -/
theorem normalizeURL_ok (base : GoURL) (href : GoStr) (n : GoURL)
    (h : normalizeURL base href = .ok n) :
    (n.scheme = gs "http" ∨ n.scheme = gs "https") ∧ n.fragment = [] := by
  simp only [normalizeURL] at h
  by_cases h0 : trimSpace href = []
  · simp only [if_pos h0] at h
    exact Except.noConfusion h
  · simp only [if_neg h0] at h
    cases hp : urlParse (trimSpace href) with
    | none =>
      simp only [hp] at h
      exact Except.noConfusion h
    | some parsed =>
      simp only [hp] at h
      set q : GoURL := if ¬ parsed.isAbs = true then resolveReference base parsed else parsed
        with hq
      by_cases hs : q.scheme ≠ gs "http" ∧ q.scheme ≠ gs "https"
      · simp only [if_pos hs] at h
        exact Except.noConfusion h
      · simp only [if_neg hs] at h
        simp only [Except.ok.injEq] at h
        subst h
        refine ⟨?_, rfl⟩
        show q.scheme = gs "http" ∨ q.scheme = gs "https"
        by_cases h1 : q.scheme = gs "http"
        · exact Or.inl h1
        · right
          by_contra h2
          exact hs ⟨h1, h2⟩

/-- Everything `linkEnqueues` emits: depth as given, a canonical URL string
    not yet visited, produced by a successful normalization of one of the
    page's raw links. -/
theorem linkEnqueues_mem (pu : GoURL) (vis : List GoStr) (links : List GoStr)
    (d : Nat) (it : QItem) (h : it ∈ linkEnqueues pu vis links d) :
    it.depth = d ∧ canonicalURL it.url ∧ vis.contains it.url = false ∧
      ∃ href ∈ links, ∃ n, normalizeURL pu href = .ok n ∧ it.url = urlString n := by
  simp only [linkEnqueues, List.mem_filterMap] at h
  obtain ⟨href, hhref, hres⟩ := h
  rcases hn : normalizeURL pu href with e | n
  · rw [hn] at hres
    exact Option.noConfusion hres
  · rw [hn] at hres
    simp only [] at hres
    by_cases hv : vis.contains (urlString n)
    · rw [if_pos hv] at hres
      exact Option.noConfusion hres
    · rw [if_neg hv] at hres
      simp only [Option.some.injEq] at hres
      subst hres
      refine ⟨rfl, ⟨n, rfl, normalizeURL_ok pu href n hn⟩, by simpa using hv,
        href, hhref, n, hn, rfl⟩
/-- One step never removes a URL from the visited set. -/
theorem crawlStep_visited_mono (c : CrawlCfg) (st : CrawlState) (u : GoStr)
    (h : st.visited.contains u = true) :
    (crawlStep c st).1.visited.contains u = true := by
  simp only [crawlStep]
  repeat' split
  all_goals simp_all [List.contains_cons]

/-- `countFetching` distributes over append. -/
theorem countFetching_append (a b : List Ev) (u : GoStr) :
    countFetching (a ++ b) u = countFetching a u + countFetching b u :=
  List.countP_append _ _ _

/-- `countFetching` on a cons cell. -/
theorem countFetching_cons (e : Ev) (evs : List Ev) (u : GoStr) :
    countFetching (e :: evs) u =
      countFetching evs u +
        (if (match e with | Ev.fetching v => v == u | _ => false) then 1 else 0) :=
  List.countP_cons _ _ _

/-- The empty trace fetches nothing. -/
theorem countFetching_nil (u : GoStr) : countFetching [] u = 0 := rfl

/-- Enqueue events are not fetch events. -/
theorem countFetching_map_enqueue (l : List QItem) (u : GoStr) :
    countFetching (l.map (fun q => Ev.enqueue q.url q.depth)) u = 0 := by
  unfold countFetching
  induction l with
  | nil => rfl
  | cons a as ih => simp only [List.map_cons, List.countP_cons, ih]; rfl

/-- One step logs at most one fetch attempt. -/
theorem crawlStep_fetch_le_one (c : CrawlCfg) (st : CrawlState) (u : GoStr) :
    countFetching (crawlStep c st).2 u ≤ 1 := by
  simp only [crawlStep]
  repeat' split
  all_goals simp [countFetching_append, countFetching_cons, countFetching_nil,
    countFetching_map_enqueue]
  all_goals (try split) <;> omega
/-- A fetch in one step targets the head URL: it was unvisited before the
    step and is visited after it. -/
theorem crawlStep_fetch_new (c : CrawlCfg) (st : CrawlState) (u : GoStr) :
    1 ≤ countFetching (crawlStep c st).2 u →
      st.visited.contains u = false ∧ (crawlStep c st).1.visited.contains u = true := by
  simp only [crawlStep]
  repeat' split
  all_goals
    simp_all [countFetching_append, countFetching_cons, countFetching_nil,
      countFetching_map_enqueue, List.contains_cons]
  all_goals (intro h; split at h)
  all_goals simp_all [List.contains_cons]

/-- A finished or crashed state is a fixed point of the step with no
    events. -/
theorem crawlStep_done (c : CrawlCfg) (st : CrawlState) (hd : isDone c st = true) :
    crawlStep c st = (st, []) := by
  simp only [isDone, Bool.or_eq_true, decide_eq_true_eq] at hd
  by_cases hc : st.crashed
  · simp [crawlStep, hc]
  · cases hq : st.queue with
    | nil => simp [crawlStep, hc, hq]
    | cons a as =>
      have hp : c.maxPages ≤ st.pages := by
        rcases hd with (h | h) | h
        · exact absurd h hc
        · rw [hq] at h; simp at h
        · exact h
      simp [crawlStep, hc, hq, hp]

/-- An unfinished step makes progress: it either consumes one queue item at
    unchanged page count, or crawls a page (incrementing `pagesCrawled`), or
    crashes. -/
theorem crawlStep_progress (c : CrawlCfg) (st : CrawlState) (hd : isDone c st = false) :
    ((crawlStep c st).1.pages = st.pages ∧
      (crawlStep c st).1.queue.length + 1 = st.queue.length) ∨
    (crawlStep c st).1.pages = st.pages + 1 ∨ (crawlStep c st).1.crashed = true := by
  simp only [isDone, Bool.or_eq_false_iff, decide_eq_false_iff_not] at hd
  obtain ⟨⟨hc, hq⟩, hp⟩ := hd
  simp only [crawlStep]
  repeat' split
  all_goals simp_all

/-- Page count never decreases. -/
theorem crawlStep_pages_mono (c : CrawlCfg) (st : CrawlState) :
    st.pages ≤ (crawlStep c st).1.pages := by
  simp only [crawlStep]
  repeat' split
  all_goals simp

/-- Page count stays within the budget. -/
theorem crawlStep_pages_bound (c : CrawlCfg) (st : CrawlState)
    (h : st.pages ≤ c.maxPages) : (crawlStep c st).1.pages ≤ c.maxPages := by
  simp only [crawlStep]
  repeat' split
  all_goals simp_all
  all_goals omega

/-- `countUpserts` distributes over append. -/
theorem countUpserts_append (a b : List Ev) :
    countUpserts (a ++ b) = countUpserts a + countUpserts b :=
  List.countP_append _ _ _

/-- `countUpserts` on a cons cell. -/
theorem countUpserts_cons (e : Ev) (evs : List Ev) :
    countUpserts (e :: evs) =
      countUpserts evs +
        (if (match e with | Ev.upsert _ _ _ => true | _ => false) then 1 else 0) :=
  List.countP_cons _ _ _

/-- The empty trace has no upserts. -/
theorem countUpserts_nil : countUpserts [] = 0 := rfl

/-- Enqueue events are not upsert events. -/
theorem countUpserts_map_enqueue (l : List QItem) :
    countUpserts (l.map (fun q => Ev.enqueue q.url q.depth)) = 0 := by
  unfold countUpserts
  induction l with
  | nil => rfl
  | cons a as ih => simp only [List.map_cons, List.countP_cons, ih]; rfl

/-- Each step records exactly as many upserts as it adds to
    `pagesCrawled`. -/
theorem crawlStep_upsert_pages (c : CrawlCfg) (st : CrawlState) :
    countUpserts (crawlStep c st).2 + st.pages = (crawlStep c st).1.pages := by
  simp only [crawlStep]
  repeat' split
  all_goals simp [countUpserts_append, countUpserts_cons, countUpserts_nil,
    countUpserts_map_enqueue]
  all_goals omega
/-- A run never removes a URL from the visited set. -/
theorem crawlRun_visited_mono (c : CrawlCfg) :
    ∀ (n : Nat) (st : CrawlState) (u : GoStr), st.visited.contains u = true →
      (crawlRun c n st).1.visited.contains u = true := by
  intro n
  induction n with
  | zero => intro st u h; simpa [crawlRun] using h
  | succ n ih =>
    intro st u h
    simp only [crawlRun]
    exact ih _ u (crawlStep_visited_mono c st u h)

/-- Fetch-once: over any run, each URL is fetched at most once, and a fetched
    URL was unvisited at the start of the run and is visited at its end. -/
theorem crawlRun_fetch_once (c : CrawlCfg) :
    ∀ (n : Nat) (st : CrawlState) (u : GoStr),
      countFetching (crawlRun c n st).2 u ≤ 1 ∧
      (1 ≤ countFetching (crawlRun c n st).2 u →
        st.visited.contains u = false ∧ (crawlRun c n st).1.visited.contains u = true) := by
  intro n
  induction n with
  | zero => intro st u; simp [crawlRun, countFetching_nil]
  | succ n ih =>
    intro st u
    simp only [crawlRun, countFetching_append]
    obtain ⟨ih1, ih2⟩ := ih (crawlStep c st).1 u
    have s1 := crawlStep_fetch_le_one c st u
    constructor
    · by_cases h1 : 1 ≤ countFetching (crawlStep c st).2 u
      · have hv := (crawlStep_fetch_new c st u h1).2
        have h0 : countFetching (crawlRun c n (crawlStep c st).1).2 u = 0 := by
          by_contra hnz
          have hge : 1 ≤ countFetching (crawlRun c n (crawlStep c st).1).2 u :=
            Nat.one_le_iff_ne_zero.mpr hnz
          have hfalse := (ih2 hge).1
          rw [hv] at hfalse
          exact Bool.noConfusion hfalse
        omega
      · omega
    · intro hge
      by_cases h1 : 1 ≤ countFetching (crawlStep c st).2 u
      · obtain ⟨ha, hb⟩ := crawlStep_fetch_new c st u h1
        exact ⟨ha, crawlRun_visited_mono c n _ u hb⟩
      · have hge2 : 1 ≤ countFetching (crawlRun c n (crawlStep c st).1).2 u := by omega
        obtain ⟨ha, hb⟩ := ih2 hge2
        refine ⟨?_, hb⟩
        by_contra hx
        have hx2 : st.visited.contains u = true := by
          cases hval : st.visited.contains u
          · exact absurd hval hx
          · rfl
        have := crawlStep_visited_mono c st u hx2
        rw [ha] at this
        exact Bool.noConfusion this

/-- Page count never decreases over a run. -/
theorem crawlRun_pages_mono (c : CrawlCfg) :
    ∀ (n : Nat) (st : CrawlState), st.pages ≤ (crawlRun c n st).1.pages := by
  intro n
  induction n with
  | zero => intro st; simp [crawlRun]
  | succ n ih =>
    intro st
    simp only [crawlRun]
    exact le_trans (crawlStep_pages_mono c st) (ih _)

/-- Page count stays within the configured budget over a run. -/
theorem crawlRun_pages_bound (c : CrawlCfg) :
    ∀ (n : Nat) (st : CrawlState), st.pages ≤ c.maxPages →
      (crawlRun c n st).1.pages ≤ c.maxPages := by
  intro n
  induction n with
  | zero => intro st h; simpa [crawlRun] using h
  | succ n ih =>
    intro st h
    simp only [crawlRun]
    exact ih _ (crawlStep_pages_bound c st h)

/-- The trace records exactly one upsert per `pagesCrawled` increment. -/
theorem crawlRun_upserts (c : CrawlCfg) :
    ∀ (n : Nat) (st : CrawlState),
      countUpserts (crawlRun c n st).2 + st.pages = (crawlRun c n st).1.pages := by
  intro n
  induction n with
  | zero => intro st; simp [crawlRun, countUpserts_nil]
  | succ n ih =>
    intro st
    simp only [crawlRun, countUpserts_append]
    have h1 := crawlStep_upsert_pages c st
    have h2 := ih (crawlStep c st).1
    omega

/-- Once finished, a run stays put and logs nothing. -/
theorem crawlRun_done_fix (c : CrawlCfg) :
    ∀ (n : Nat) (st : CrawlState), isDone c st = true → crawlRun c n st = (st, []) := by
  intro n
  induction n with
  | zero => intro st _; rfl
  | succ n ih =>
    intro st h
    simp [crawlRun, crawlStep_done c st h, ih st h]

/-- Termination: from any state, the crawl loop reaches its stopping
    condition after finitely many iterations. -/
theorem crawlRun_terminates (c : CrawlCfg) (st : CrawlState) :
    ∃ n, isDone c ((crawlRun c n st).1) = true := by
  suffices H : ∀ (k : Nat) (st : CrawlState), c.maxPages - st.pages ≤ k →
      ∃ n, isDone c ((crawlRun c n st).1) = true from H (c.maxPages - st.pages) st le_rfl
  intro k
  induction k with
  | zero =>
    intro st hk
    refine ⟨0, ?_⟩
    simp only [crawlRun, isDone]
    have : c.maxPages ≤ st.pages := by omega
    simp [this]
  | succ k ihk =>
    intro st hk
    suffices Hq : ∀ (q : Nat) (st : CrawlState), c.maxPages - st.pages ≤ k + 1 →
        st.queue.length ≤ q → ∃ n, isDone c ((crawlRun c n st).1) = true from
      Hq st.queue.length st hk le_rfl
    intro q
    induction q with
    | zero =>
      intro st _ hq
      refine ⟨0, ?_⟩
      have : st.queue = [] := List.length_eq_zero.mp (Nat.le_zero.mp hq)
      simp [crawlRun, isDone, this]
    | succ q ihq =>
      intro st hk1 hq
      by_cases hd : isDone c st = true
      · exact ⟨0, hd⟩
      · have hd0 : isDone c st = false := by
          cases hval : isDone c st
          · rfl
          · exact absurd hval hd
        have hpl : st.pages < c.maxPages := by
          simp only [isDone, Bool.or_eq_false_iff, decide_eq_false_iff_not] at hd0
          omega
        rcases crawlStep_progress c st hd0 with ⟨hp, hql⟩ | hp | hcr
        · obtain ⟨n, hn⟩ := ihq (crawlStep c st).1 (by omega) (by omega)
          exact ⟨n + 1, by simpa [crawlRun] using hn⟩
        · obtain ⟨n, hn⟩ := ihk (crawlStep c st).1 (by omega)
          exact ⟨n + 1, by simpa [crawlRun] using hn⟩
        · refine ⟨1, ?_⟩
          simp [crawlRun, isDone, hcr]
/-- Depth discipline for one event: an enqueue carries a depth between 1 and
    the depth bound (children of a depth-`d` page are enqueued at `d + 1`,
    and only when `d < maxDepth`). -/
def evDepthLe (maxD : Nat) : Ev → Prop
  | .enqueue _ d => 1 ≤ d ∧ d ≤ maxD
  | _ => True

/-- Every enqueue a step performs respects the depth bound. -/
theorem crawlStep_depthOK (c : CrawlCfg) (st : CrawlState) :
    ∀ e ∈ (crawlStep c st).2, evDepthLe c.maxDepth e := by
  simp only [crawlStep]
  repeat' split
  all_goals intro e he
  all_goals cases e <;> simp [evDepthLe]
  all_goals simp_all [List.mem_append, List.mem_cons, List.mem_map]
  all_goals obtain ⟨q, hq, hqe, _⟩ := he
  all_goals have hd := (linkEnqueues_mem _ _ _ _ q hq).1
  all_goals omega
/-- Run-level depth discipline. -/
theorem crawlRun_depthOK (c : CrawlCfg) :
    ∀ (n : Nat) (st : CrawlState), ∀ e ∈ (crawlRun c n st).2, evDepthLe c.maxDepth e := by
  intro n
  induction n with
  | zero => intro st e he; exact absurd he (List.not_mem_nil e)
  | succ n ih =>
    intro st e he
    simp only [crawlRun, List.mem_append] at he
    rcases he with h | h
    · exact crawlStep_depthOK c st e h
    · exact ih _ e h

/-- Canonical-key discipline for one event: an enqueue records a canonical
    (absolute http(s), fragment-free) URL string at depth at least 1; an
    upsert from a depth-`≥ 1` frontier item persists the sanitized form of a
    canonical URL string. -/
def evCanonical : Ev → Prop
  | .enqueue u d => 1 ≤ d ∧ canonicalURL u
  | .upsert p _ d => 1 ≤ d → ∃ s, canonicalURL s ∧ p.url = safeUTF8 s
  | _ => True

/-- Every depth-`≥ 1` frontier item has a canonical URL string. -/
def queueCanonical (l : List QItem) : Prop :=
  ∀ it ∈ l, 1 ≤ it.depth → canonicalURL it.url

/-- One step preserves the canonical-key discipline of the queue and only
    emits canonical enqueue/upsert events. -/
theorem crawlStep_canonical (c : CrawlCfg) (st : CrawlState)
    (hq : queueCanonical st.queue) :
    queueCanonical (crawlStep c st).1.queue ∧ ∀ e ∈ (crawlStep c st).2, evCanonical e := by
  cases hcr : st.crashed
  case true =>
    simp only [crawlStep, hcr, if_pos rfl]
    exact ⟨hq, by simp⟩
  case false =>
  cases hqe : st.queue with
  | nil =>
    simp only [crawlStep, hcr, hqe]
    exact ⟨hq, by simp⟩
  | cons item rest =>
    have hrest : queueCanonical rest := by
      intro it hit
      exact hq it (by simp [hqe, hit])
    have hitem : 1 ≤ item.depth → canonicalURL item.url :=
      hq item (by simp [hqe])
    by_cases hp : c.maxPages ≤ st.pages
    · simp only [crawlStep, hcr, hqe, if_pos hp]
      exact ⟨by simpa [hqe] using hq, by simp⟩
    · by_cases hv : st.visited.contains item.url
      · simp only [crawlStep, hcr, hqe, if_neg hp, if_pos hv]
        refine ⟨hrest, ?_⟩
        intro e he
        have he2 := List.mem_singleton.mp he
        subst he2
        trivial
      · cases hparse : urlParse item.url with
        | none =>
          simp only [crawlStep, hcr, hqe, if_neg hp, if_neg hv, hparse]
          refine ⟨hrest, ?_⟩
          intro e he
          have he2 := List.mem_singleton.mp he
          subst he2
          trivial
        | some pu =>
          by_cases hall : isAllowedDomain pu c.allowed
          · cases hex : c.env.existsQ item.url with
            | found =>
              simp only [crawlStep, hcr, hqe, if_neg hp, if_neg hv, hparse,
                if_neg (not_not_intro hall), hex]
              refine ⟨hrest, ?_⟩
              intro e he
              have he2 := List.mem_singleton.mp he
              subst he2
              trivial
            | notFound =>
              cases hf : c.env.fetch item.url with
              | none =>
                simp only [crawlStep, hcr, hqe, if_neg hp, if_neg hv, hparse,
                  if_neg (not_not_intro hall), hex, hf]
                refine ⟨hrest, ?_⟩
                intro e he
                rcases List.mem_cons.mp he with rfl | he2
                · trivial
                · have he3 := List.mem_singleton.mp he2
                  subst he3
                  trivial
              | some doc =>
                cases hx : extractPage item.url doc with
                | none =>
                  simp only [crawlStep, hcr, hqe, if_neg hp, if_neg hv, hparse,
                    if_neg (not_not_intro hall), hex, hf, hx]
                  refine ⟨hrest, ?_⟩
                  intro e he
                  have he2 := List.mem_singleton.mp he
                  subst he2
                  trivial
                | some page =>
                  simp only [crawlStep, hcr, hqe, if_neg hp, if_neg hv, hparse,
                    if_neg (not_not_intro hall), hex, hf, hx]
                  constructor
                  · intro it hit hd
                    rcases List.mem_append.mp hit with h | h
                    · exact hrest it h hd
                    · split at h
                      · exact (linkEnqueues_mem _ _ _ _ it h).2.1
                      · exact absurd h (List.not_mem_nil it)
                  · intro e he
                    rcases List.mem_cons.mp he with rfl | he2
                    · trivial
                    rcases List.mem_cons.mp he2 with rfl | he3
                    · intro hd
                      refine ⟨item.url, hitem hd, ?_⟩
                      have hu := (extractPage_fields item.url doc page hx).1
                      simp [sanitizePage, hu]
                    obtain ⟨q, hq2, hqe2⟩ := List.mem_map.mp he3
                    subst hqe2
                    refine ⟨?_, ?_⟩
                    · split at hq2
                      · have := (linkEnqueues_mem _ _ _ _ q hq2).1
                        omega
                      · exact absurd hq2 (List.not_mem_nil q)
                    · split at hq2
                      · exact (linkEnqueues_mem _ _ _ _ q hq2).2.1
                      · exact absurd hq2 (List.not_mem_nil q)
            | lookupErr =>
              cases hf : c.env.fetch item.url with
              | none =>
                simp only [crawlStep, hcr, hqe, if_neg hp, if_neg hv, hparse,
                  if_neg (not_not_intro hall), hex, hf]
                refine ⟨hrest, ?_⟩
                intro e he
                rcases List.mem_cons.mp he with rfl | he2
                · trivial
                · have he3 := List.mem_singleton.mp he2
                  subst he3
                  trivial
              | some doc =>
                cases hx : extractPage item.url doc with
                | none =>
                  simp only [crawlStep, hcr, hqe, if_neg hp, if_neg hv, hparse,
                    if_neg (not_not_intro hall), hex, hf, hx]
                  refine ⟨hrest, ?_⟩
                  intro e he
                  have he2 := List.mem_singleton.mp he
                  subst he2
                  trivial
                | some page =>
                  simp only [crawlStep, hcr, hqe, if_neg hp, if_neg hv, hparse,
                    if_neg (not_not_intro hall), hex, hf, hx]
                  constructor
                  · intro it hit hd
                    rcases List.mem_append.mp hit with h | h
                    · exact hrest it h hd
                    · split at h
                      · exact (linkEnqueues_mem _ _ _ _ it h).2.1
                      · exact absurd h (List.not_mem_nil it)
                  · intro e he
                    rcases List.mem_cons.mp he with rfl | he2
                    · trivial
                    rcases List.mem_cons.mp he2 with rfl | he3
                    · intro hd
                      refine ⟨item.url, hitem hd, ?_⟩
                      have hu := (extractPage_fields item.url doc page hx).1
                      simp [sanitizePage, hu]
                    obtain ⟨q, hq2, hqe2⟩ := List.mem_map.mp he3
                    subst hqe2
                    refine ⟨?_, ?_⟩
                    · split at hq2
                      · have := (linkEnqueues_mem _ _ _ _ q hq2).1
                        omega
                      · exact absurd hq2 (List.not_mem_nil q)
                    · split at hq2
                      · exact (linkEnqueues_mem _ _ _ _ q hq2).2.1
                      · exact absurd hq2 (List.not_mem_nil q)
          · simp only [crawlStep, hcr, hqe, if_neg hp, if_neg hv, hparse, if_pos hall]
            refine ⟨hrest, ?_⟩
            intro e he
            have he2 := List.mem_singleton.mp he
            subst he2
            trivial
/-- Run-level canonical-key discipline. -/
theorem crawlRun_canonical (c : CrawlCfg) :
    ∀ (n : Nat) (st : CrawlState), queueCanonical st.queue →
      queueCanonical (crawlRun c n st).1.queue ∧ ∀ e ∈ (crawlRun c n st).2, evCanonical e := by
  intro n
  induction n with
  | zero =>
    intro st h
    exact ⟨h, by simp [crawlRun]⟩
  | succ n ih =>
    intro st h
    obtain ⟨h1, h2⟩ := crawlStep_canonical c st h
    obtain ⟨h3, h4⟩ := ih (crawlStep c st).1 h1
    refine ⟨h3, ?_⟩
    intro e he
    simp only [crawlRun, List.mem_append] at he
    rcases he with he | he
    · exact h2 e he
    · exact h4 e he

/-- Erase the `errored` flags of upsert events (the crawler ignores the
    upsert result, so only this flag can differ when the store's error
    behaviour changes). -/
def scrubUpsert (evs : List Ev) : List Ev :=
  evs.map (fun e =>
    match e with
    | Ev.upsert p _ d => Ev.upsert p false d
    | e => e)

/-- Replace a lookup error by "not found" (what the crawler's `err == nil &&
    exists` test effectively does). -/
def degradeExists (r : ExistsRes) : ExistsRes :=
  match r with
  | .lookupErr => .notFound
  | r => r

/-- Upsert failures are invisible to the crawl: changing the store's upsert
    error behaviour changes nothing in the successor state, and changes the
    trace only in the upsert events' `errored` flags. -/
theorem crawlStep_upsertErr_irrel (c : CrawlCfg) (f2 : GoStr → Bool) (st : CrawlState) :
    (crawlStep { c with env := { c.env with upsertErr := f2 } } st).1 = (crawlStep c st).1 ∧
    scrubUpsert (crawlStep { c with env := { c.env with upsertErr := f2 } } st).2 =
      scrubUpsert (crawlStep c st).2 := by
  cases hcr : st.crashed
  case true => exact ⟨by simp [crawlStep, hcr], by simp [crawlStep, hcr]⟩
  case false =>
  cases hqe : st.queue with
  | nil => exact ⟨by simp [crawlStep, hcr, hqe], by simp [crawlStep, hcr, hqe]⟩
  | cons item rest =>
    by_cases hp : c.maxPages ≤ st.pages
    · simp only [crawlStep, hcr, hqe, if_pos hp]
      exact ⟨by trivial, by trivial⟩
    · by_cases hv : st.visited.contains item.url
      · simp only [crawlStep, hcr, hqe, if_neg hp, if_pos hv]
        exact ⟨by trivial, by trivial⟩
      · cases hparse : urlParse item.url with
        | none =>
          simp only [crawlStep, hcr, hqe, if_neg hp, if_neg hv, hparse]
          exact ⟨by trivial, by trivial⟩
        | some pu =>
          by_cases hall : isAllowedDomain pu c.allowed
          · cases hex : c.env.existsQ item.url with
            | found =>
              simp only [crawlStep, hcr, hqe, if_neg hp, if_neg hv, hparse,
                if_neg (not_not_intro hall), hex]
              exact ⟨by trivial, by trivial⟩
            | notFound =>
              cases hf : c.env.fetch item.url with
              | none =>
                simp only [crawlStep, hcr, hqe, if_neg hp, if_neg hv, hparse,
                  if_neg (not_not_intro hall), hex, hf]
                exact ⟨by trivial, by trivial⟩
              | some doc =>
                cases hx : extractPage item.url doc with
                | none =>
                  simp only [crawlStep, hcr, hqe, if_neg hp, if_neg hv, hparse,
                    if_neg (not_not_intro hall), hex, hf, hx]
                  exact ⟨by trivial, by trivial⟩
                | some page =>
                  simp only [crawlStep, hcr, hqe, if_neg hp, if_neg hv, hparse,
                    if_neg (not_not_intro hall), hex, hf, hx]
                  exact ⟨by trivial, by simp [scrubUpsert]⟩
            | lookupErr =>
              cases hf : c.env.fetch item.url with
              | none =>
                simp only [crawlStep, hcr, hqe, if_neg hp, if_neg hv, hparse,
                  if_neg (not_not_intro hall), hex, hf]
                exact ⟨by trivial, by trivial⟩
              | some doc =>
                cases hx : extractPage item.url doc with
                | none =>
                  simp only [crawlStep, hcr, hqe, if_neg hp, if_neg hv, hparse,
                    if_neg (not_not_intro hall), hex, hf, hx]
                  exact ⟨by trivial, by trivial⟩
                | some page =>
                  simp only [crawlStep, hcr, hqe, if_neg hp, if_neg hv, hparse,
                    if_neg (not_not_intro hall), hex, hf, hx]
                  exact ⟨by trivial, by simp [scrubUpsert]⟩
          · simp only [crawlStep, hcr, hqe, if_neg hp, if_neg hv, hparse, if_pos hall]
            exact ⟨by trivial, by trivial⟩

/-- Existence-check errors are invisible to the crawl: a store whose lookup
    errors are replaced by "not found" produces the identical step. -/
theorem crawlStep_existsErr_irrel (c : CrawlCfg) (st : CrawlState) :
    crawlStep
      { c with env := { c.env with existsQ := fun u => degradeExists (c.env.existsQ u) } } st =
    crawlStep c st := by
  cases hcr : st.crashed
  case true => simp [crawlStep, hcr]
  case false =>
  cases hqe : st.queue with
  | nil => simp [crawlStep, hcr, hqe]
  | cons item rest =>
    by_cases hp : c.maxPages ≤ st.pages
    · simp only [crawlStep, hcr, hqe, if_pos hp]
    · by_cases hv : st.visited.contains item.url
      · simp only [crawlStep, hcr, hqe, if_neg hp, if_pos hv]
      · cases hparse : urlParse item.url with
        | none =>
          simp only [crawlStep, hcr, hqe, if_neg hp, if_neg hv, hparse]
        | some pu =>
          by_cases hall : isAllowedDomain pu c.allowed
          · cases hex : c.env.existsQ item.url with
            | found =>
              simp only [crawlStep, hcr, hqe, if_neg hp, if_neg hv, hparse,
                if_neg (not_not_intro hall), hex, degradeExists]
            | notFound =>
              simp only [crawlStep, hcr, hqe, if_neg hp, if_neg hv, hparse,
                if_neg (not_not_intro hall), hex, degradeExists]
            | lookupErr =>
              simp only [crawlStep, hcr, hqe, if_neg hp, if_neg hv, hparse,
                if_neg (not_not_intro hall), hex, degradeExists]
          · simp only [crawlStep, hcr, hqe, if_neg hp, if_neg hv, hparse, if_pos hall]

/-- Run-level upsert-error insensitivity. -/
theorem crawlRun_upsertErr_irrel (c : CrawlCfg) (f2 : GoStr → Bool) :
    ∀ (n : Nat) (st : CrawlState),
      (crawlRun { c with env := { c.env with upsertErr := f2 } } n st).1 =
        (crawlRun c n st).1 ∧
      scrubUpsert (crawlRun { c with env := { c.env with upsertErr := f2 } } n st).2 =
        scrubUpsert (crawlRun c n st).2 := by
  intro n
  induction n with
  | zero => intro st; exact ⟨rfl, rfl⟩
  | succ n ih =>
    intro st
    obtain ⟨h1, h2⟩ := crawlStep_upsertErr_irrel c f2 st
    obtain ⟨h3, h4⟩ := ih (crawlStep c st).1
    simp only [crawlRun]
    rw [h1]
    refine ⟨h3, ?_⟩
    simp only [scrubUpsert, List.map_append] at h1 h2 h4 ⊢
    rw [h2, h4]

/-- Run-level existence-error insensitivity. -/
theorem crawlRun_existsErr_irrel (c : CrawlCfg) :
    ∀ (n : Nat) (st : CrawlState),
      crawlRun
        { c with env := { c.env with existsQ := fun u => degradeExists (c.env.existsQ u) } }
        n st =
      crawlRun c n st := by
  intro n
  induction n with
  | zero => intro st; rfl
  | succ n ih =>
    intro st
    simp only [crawlRun, crawlStep_existsErr_irrel c st, ih (crawlStep c st).1]

/-! ### Claim scenarios and claim theorems -/

/-- A document on which every goquery query of `extractPage` comes back
    empty: no metadata, no text, no links. -/
def emptyDoc : HtmlDoc :=
  { titleText := [], metaDescription := none, ogDescription := none,
    ogSiteName := none, ogImage := none, twitterImage := none,
    pTexts := [], bodyText := [], linkTags := [], imgSrcs := [], aHrefs := [] }

/-- C1 scenario: every fetched page carries one link, `/x`; the store is
    empty and never errors; no domain restriction. -/
def doc1 : HtmlDoc := { emptyDoc with aHrefs := [gs "/x"] }

def cfg1 : CrawlCfg :=
  { env := { existsQ := fun _ => ExistsRes.notFound, fetch := fun _ => some doc1,
             upsertErr := fun _ => false },
    allowed := [], maxPages := 500, maxDepth := 5 }

def seeds1 : GoStr := gs "http://a.com/p1,http://a.com/p2"

/-- C1, counterexample. The claim says a normalized URL is enqueued at most
    once per run because the dedup check happens at enqueue time. In fact the
    enqueue-time check consults `visited`, which records dequeued URLs only:
    with the seeds `http://a.com/p1,http://a.com/p2` both linking to `/x`,
    the two iterations that process the seeds both append
    `http://a.com/x` to the queue (the second append happens before that URL
    was ever dequeued), so the enqueue count of `http://a.com/x` is 2 while
    its fetch count is still 0. -/
theorem C1_counterexample :
    countEnqueue (crawlRun cfg1 2 (initState seeds1)).2 (gs "http://a.com/x") = 2 ∧
    countFetching (crawlRun cfg1 2 (initState seeds1)).2 (gs "http://a.com/x") = 0 := by
  decide

/-- C1, amended: the dedup that actually holds is at dequeue time. Over any
    run, each URL is *fetched* at most once (duplicate queue entries are
    dropped by the `visited` check when dequeued), and a URL that is fetched
    was unvisited at the start of the run and is visited at its end. -/
theorem C1_amended (c : CrawlCfg) (n : Nat) (st : CrawlState) (u : GoStr) :
    countFetching (crawlRun c n st).2 u ≤ 1 ∧
      (1 ≤ countFetching (crawlRun c n st).2 u →
        st.visited.contains u = false ∧
          (crawlRun c n st).1.visited.contains u = true) :=
  crawlRun_fetch_once c n st u

/-- C1, witness: the amended theorem applied to the concrete duplicate-link
    scenario, at the seed URL `http://a.com/p1` (fetched exactly once). -/
theorem C1_amended_witness :
    1 ≤ countFetching (crawlRun cfg1 2 (initState seeds1)).2 (gs "http://a.com/p1") ∧
    ((initState seeds1).visited.contains (gs "http://a.com/p1") = false ∧
      (crawlRun cfg1 2 (initState seeds1)).1.visited.contains
        (gs "http://a.com/p1") = true) :=
  ⟨by decide,
   (C1_amended cfg1 2 (initState seeds1) (gs "http://a.com/p1")).2 (by decide)⟩

/-- C2 scenario: a page whose every scalar field holds an invalid byte
    sequence, and whose links do too. `0xFF` is never valid in UTF-8;
    `0xC3` is a truncated two-byte sequence. -/
def page2 : Page :=
  { url := 0xFF :: gs "u", title := [0xC3], snippet := [0x80],
    favicon := [0xFF], siteName := [0xF5], image := [0xE2, 0x82],
    text := 0xFF :: gs "A", links := [[0xFF], 0xFF :: gs "a"] }

/-- C2 scenario: a document whose only `a[href]` carries an invalid byte. -/
def doc2 : HtmlDoc := { emptyDoc with aHrefs := [0xFF :: gs "a"] }

/-- C2, counterexample. The claim says every string field including each
    entry of `Links` is sanitized exactly once, immediately before
    persistence. In fact the sanitization block of `upsertPage` covers only
    the seven scalar fields and leaves `Links` untouched (an invalid link
    entry reaches the store as-is), while link entries are sanitized much
    earlier, inside `extractPage`, which maps every raw href through
    `safeUTF8`. -/
theorem C2_counterexample :
    (sanitizePage page2).links = [[0xFF], 0xFF :: gs "a"] ∧
    safeUTF8 [0xFF] = [] ∧
    (extractPage (gs "http://a.com/x") doc2).map Page.links = some [gs "a"] := by
  decide

/-- C2, amended: the seven scalar string fields (URL, Title, Snippet,
    Favicon, SiteName, Image, Text) are sanitized by the block immediately
    before persistence, and the sanitized values are valid UTF-8 with invalid
    sequences stripped; `Links` is not touched there but was already
    sanitized at extraction time, where each raw href is mapped through
    `safeUTF8`, so every link entry of an extracted page is valid UTF-8 as
    well. -/
theorem C2_amended (p : Page) (u : GoStr) (doc : HtmlDoc) (q : Page)
    (h : extractPage u doc = some q) :
    ValidUTF8 (sanitizePage p).url ∧ ValidUTF8 (sanitizePage p).title ∧
    ValidUTF8 (sanitizePage p).snippet ∧ ValidUTF8 (sanitizePage p).favicon ∧
    ValidUTF8 (sanitizePage p).siteName ∧ ValidUTF8 (sanitizePage p).image ∧
    ValidUTF8 (sanitizePage p).text ∧ (sanitizePage p).links = p.links ∧
    q.links = doc.aHrefs.map safeUTF8 ∧ ∀ l ∈ q.links, ValidUTF8 l := by
  refine ⟨validUTF8_toValidUTF8 _, validUTF8_toValidUTF8 _, validUTF8_toValidUTF8 _,
    validUTF8_toValidUTF8 _, validUTF8_toValidUTF8 _, validUTF8_toValidUTF8 _,
    validUTF8_toValidUTF8 _, rfl, (extractPage_fields u doc q h).2.2.2.2, ?_⟩
  intro l hl
  rw [(extractPage_fields u doc q h).2.2.2.2] at hl
  obtain ⟨a, _, ha⟩ := List.mem_map.mp hl
  rw [← ha]
  exact validUTF8_toValidUTF8 a

/-- C2 witness scenario: the page `extractPage` produces on `doc2`. -/
def page2w : Page :=
  { url := gs "http://a.com/x", title := [], snippet := [], favicon := [],
    siteName := gs "a.com", image := [], text := [], links := [gs "a"] }

/-- C2, witness: the amended theorem at the concrete invalid-byte page and
    document. -/
theorem C2_amended_witness :
    extractPage (gs "http://a.com/x") doc2 = some page2w ∧
    (sanitizePage page2).links = page2.links ∧
    page2w.links = doc2.aHrefs.map safeUTF8 :=
  ⟨by decide,
   (C2_amended page2 (gs "http://a.com/x") doc2 page2w (by decide)).2.2.2.2.2.2.2.1,
   (C2_amended page2 (gs "http://a.com/x") doc2 page2w (by decide)).2.2.2.2.2.2.2.2.1⟩

/-- C3 scenario: a single seed whose page links to `/x`; the store reports
    an upsert error for every page. -/
def doc3 : HtmlDoc := { emptyDoc with aHrefs := [gs "/x"] }

def seed3 : GoStr := gs "http://a.com/p1"

def cfg3bad : CrawlCfg :=
  { env := { existsQ := fun _ => ExistsRes.notFound, fetch := fun _ => some doc3,
             upsertErr := fun _ => true },
    allowed := [], maxPages := 500, maxDepth := 5 }

/-- C3 scenario: same seed, but every existence check errors out. -/
def cfg3err : CrawlCfg :=
  { env := { existsQ := fun _ => ExistsRes.lookupErr, fetch := fun _ => some doc3,
             upsertErr := fun _ => false },
    allowed := [], maxPages := 500, maxDepth := 5 }

/-- C3, counterexample. The claim says a URL whose upsert fails is not
    counted toward `pagesCrawled` and its links are not enqueued. In fact
    `crawlSeeds` ignores the return value of `upsertPage`: with the store
    erroring on every upsert, the seed page is still counted
    (`pagesCrawled = 1`) and its link is still enqueued; and with the
    existence check erroring, the URL is not abandoned either — it is still
    fetched (because `pageExists` returns `err == nil, err`, an error reads
    as "not found"). -/
theorem C3_counterexample :
    (crawlRun cfg3bad 1 (initState seed3)).1.pages = 1 ∧
    countEnqueue (crawlRun cfg3bad 1 (initState seed3)).2 (gs "http://a.com/x") = 1 ∧
    countUpserts (crawlRun cfg3bad 1 (initState seed3)).2 = 1 ∧
    countFetching (crawlRun cfg3err 1 (initState seed3)).2 seed3 = 1 ∧
    (crawlRun cfg3err 1 (initState seed3)).1.pages = 1 := by
  decide

/-- C3, amended: persistence errors are contained in a stronger sense than
    the claim states — they are invisible to the crawl. Changing the store's
    upsert-error behaviour arbitrarily changes nothing in the reached state
    (the page is still counted and its links enqueued; only the logged error
    flag of the upsert events can differ), and replacing every
    existence-check error by "not found" changes nothing at all (an erroring
    lookup is crawled as if the page were missing, not abandoned). -/
theorem C3_amended (c : CrawlCfg) (f2 : GoStr → Bool) (n : Nat) (st : CrawlState) :
    (crawlRun { c with env := { c.env with upsertErr := f2 } } n st).1 =
        (crawlRun c n st).1 ∧
    scrubUpsert (crawlRun { c with env := { c.env with upsertErr := f2 } } n st).2 =
        scrubUpsert (crawlRun c n st).2 ∧
    crawlRun
        { c with env :=
            { c.env with existsQ := fun u => degradeExists (c.env.existsQ u) } }
        n st =
      crawlRun c n st :=
  ⟨(crawlRun_upsertErr_irrel c f2 n st).1, (crawlRun_upsertErr_irrel c f2 n st).2,
   crawlRun_existsErr_irrel c n st⟩

/-- C4 scenario: a document whose only `<link>` is an icon whose href
    contains an ASCII control byte, which `url.Parse` rejects. -/
def doc4 : HtmlDoc := { emptyDoc with linkTags := [(gs "icon", [10])] }

/-- C4: the claim says `extract(url, document)` always succeeds and has no
    failure path. The code has one: when a non-empty favicon (or preview
    image) candidate fails `url.Parse`, `extractPage` ignores the error and
    calls `fu.String()` on the nil pointer — a panic; likewise, when the page
    URL itself fails `url.Parse`, the error is discarded at line 180 and the
    nil `parsedURL` is dereferenced by `ResolveReference`/`Hostname()`. In
    the embedding these panics are `extractPage ... = none`: a document with
    favicon href `"\n"` crashes extraction even though the page URL is fine,
    and so does an unparsable page URL on a document with no candidates at
    all. -/
theorem C4_bug :
    extractFavicon0 doc4 = [10] ∧ urlParse [10] = none ∧
    extractPage (gs "http://a.com/x") doc4 = none ∧
    urlParse (gs "http://a.com/x") ≠ none ∧
    extractPage [10] emptyDoc = none := by
  decide

/-- Seed queues are canonically keyed in the vacuous sense: every seed enters
    the frontier at depth 0, so the depth-`≥ 1` canonical-key discipline
    holds of the initial state for free. -/
theorem initState_queueCanonical (seedsEnv : GoStr) :
    queueCanonical (initState seedsEnv).queue := by
  intro it hit h1
  simp only [initState, seedQueue, List.mem_filterMap] at hit
  obtain ⟨s, _, hsome⟩ := hit
  by_cases ht : trimSpace s = []
  · rw [if_pos ht] at hsome
    exact Option.noConfusion hsome
  · rw [if_neg ht] at hsome
    simp only [Option.some.injEq] at hsome
    rw [← hsome] at h1
    exact absurd h1 (by simp)

/-- C5 scenario: a single seed URL that carries a fragment; its page is
    empty; the store is empty and never errors. -/
def seed5 : GoStr := gs "http://a.com/x#f"

def cfg5 : CrawlCfg :=
  { env := { existsQ := fun _ => ExistsRes.notFound, fetch := fun _ => some emptyDoc,
             upsertErr := fun _ => false },
    allowed := [], maxPages := 500, maxDepth := 5 }

/-- C5, counterexample. The claim says every persisted page has a
    canonicalized URL key, fragment removed, including pages originating from
    seed URLs. In fact seeds are enqueued raw (only trimmed) and `extractPage`
    stores the frontier string verbatim, so the seed `http://a.com/x#f` is
    upserted under a key that still contains its fragment. -/
theorem C5_counterexample :
    ((crawlRun cfg5 1 (initState seed5)).2.any (fun e =>
        match e with
        | Ev.upsert p _ _ => p.url == gs "http://a.com/x#f"
        | _ => false)) = true ∧
    (urlParse (gs "http://a.com/x#f")).map GoURL.fragment = some (gs "f") := by
  decide

/-- C5, amended: pages discovered via link normalization (frontier depth
    `≥ 1`) are canonically keyed — their URL string is the rendering of an
    absolute http(s) URL with empty fragment — but seed pages (depth 0) are
    exempt: their key is the raw trimmed seed string. Formally, if every
    depth-`≥ 1` item of the starting queue is canonical, then this stays true
    of the queue, every enqueue event records a canonical URL at depth
    `≥ 1`, and every upsert from a depth-`≥ 1` item persists the sanitized
    form of a canonical URL string. -/
theorem C5_amended (c : CrawlCfg) (n : Nat) (st : CrawlState)
    (h : queueCanonical st.queue) :
    queueCanonical (crawlRun c n st).1.queue ∧
    ∀ e ∈ (crawlRun c n st).2, evCanonical e :=
  crawlRun_canonical c n st h

/-- C5, witness: the amended theorem started from the fragment-carrying seed
    (its initial queue is depth-0 only, hence canonical vacuously). -/
theorem C5_amended_witness :
    queueCanonical (initState seed5).queue ∧
    (queueCanonical (crawlRun cfg5 1 (initState seed5)).1.queue ∧
      ∀ e ∈ (crawlRun cfg5 1 (initState seed5)).2, evCanonical e) :=
  ⟨initState_queueCanonical seed5,
   C5_amended cfg5 1 (initState seed5) (initState_queueCanonical seed5)⟩

/-- The snippet fallback chain exactly as the specification words it, with
    the 40-character threshold for a `<p>` counted in characters (runes).
    Spec-worded definition, for comparison with `extractSnippet` /
    `snippetSpec`, whose threshold is in bytes. -/
def snippetSpecChars (doc : HtmlDoc) : GoStr :=
  let d := trimSpace (doc.metaDescription.getD [])
  if d ≠ [] then d
  else
    let og := trimSpace (doc.ogDescription.getD [])
    if og ≠ [] then og
    else
      match doc.pTexts.find? (fun t => (utf8Runes (trimSpace t)).length > 40) with
      | some t => trimSpace t
      | none => runeTruncate 300 (trimSpace doc.bodyText)

/-- C6 scenario: a document whose only paragraph is fifteen euro signs — 15
    characters but 45 UTF-8 bytes — and whose body text is "body". -/
def euro15 : GoStr := (List.replicate 15 [0xE2, 0x82, 0xAC]).flatten

def doc6 : HtmlDoc := { emptyDoc with pTexts := [euro15], bodyText := gs "body" }

/-- C6, counterexample. The claim says the `<p>` fallback fires when the
    trimmed paragraph exceeds 40 characters, counted in characters. The code
    tests Go `len(txt) > 40`, which counts bytes: a 15-character paragraph of
    45 bytes is selected by the code, where the character-counted reading
    would fall through to the body-text fallback. -/
theorem C6_counterexample :
    (utf8Runes euro15).length = 15 ∧ euro15.length = 45 ∧
    extractSnippet doc6 = euro15 ∧
    snippetSpecChars doc6 = gs "body" ∧
    extractSnippet doc6 ≠ snippetSpecChars doc6 := by
  decide

/-- C6, amended: the snippet of every extracted page follows the prioritized
    fallback with the `<p>` threshold counted in bytes (Go `len`), not
    characters; the final body-text fallback does truncate at 300 characters
    (runes). `snippetSpec` is that byte-threshold reading of the
    specification. -/
theorem C6_amended (u : GoStr) (doc : HtmlDoc) (p : Page)
    (h : extractPage u doc = some p) :
    p.snippet = snippetSpec doc ∧ extractSnippet doc = snippetSpec doc := by
  refine ⟨?_, extractSnippet_eq_snippetSpec doc⟩
  rw [(extractPage_fields u doc p h).2.2.1]
  exact extractSnippet_eq_snippetSpec doc

/-- C6 witness scenario: a document with only a 50-character paragraph and no
    meta description — the specification's own example — and the page
    `extractPage` produces on it. -/
def para50 : GoStr := List.replicate 50 97

def doc6w : HtmlDoc := { emptyDoc with pTexts := [para50], bodyText := gs "b" }

def page6w : Page :=
  { url := gs "http://a.com/x", title := [], snippet := para50, favicon := [],
    siteName := gs "a.com", image := [], text := gs "b", links := [] }

/-- C6, witness: the amended theorem at the 50-character-paragraph document;
    that paragraph is the snippet verbatim. -/
theorem C6_amended_witness :
    extractPage (gs "http://a.com/x") doc6w = some page6w ∧
    (page6w.snippet = snippetSpec doc6w ∧ extractSnippet doc6w = snippetSpec doc6w) ∧
    snippetSpec doc6w = para50 :=
  ⟨by decide, C6_amended (gs "http://a.com/x") doc6w page6w (by decide), by decide⟩

/-- The relative-reference step of `normalizeURL` (`web_crawler.go:88-90`):
    resolve against the base only when the parsed href is not absolute. -/
def resolveIfRel (base parsed : GoURL) : GoURL :=
  if ¬ parsed.isAbs then resolveReference base parsed else parsed

/-- C7: `normalize(base, href)` trims the href and fails exactly when the
    trimmed href is empty or fails `url.Parse` (both `InvalidURL`), or the
    resolved reference's scheme is not exactly http or https
    (`UnsupportedScheme`); on success it returns the resolved URL with the
    fragment cleared and nothing else changed. The specification's three
    examples hold: `/y` against `https://a.com/x` gives `https://a.com/y`,
    a `#frag` suffix is stripped, and a `javascript:` href fails with
    `UnsupportedScheme`. -/
theorem C7_main (base : GoURL) (href : GoStr) :
    (trimSpace href = [] ∨ urlParse (trimSpace href) = none →
        normalizeURL base href = Except.error NormErr.invalidURL) ∧
    (∀ parsed, trimSpace href ≠ [] → urlParse (trimSpace href) = some parsed →
        ((resolveIfRel base parsed).scheme ≠ gs "http" ∧
            (resolveIfRel base parsed).scheme ≠ gs "https" →
          normalizeURL base href = Except.error NormErr.unsupportedScheme) ∧
        ((resolveIfRel base parsed).scheme = gs "http" ∨
            (resolveIfRel base parsed).scheme = gs "https" →
          normalizeURL base href =
            Except.ok { resolveIfRel base parsed with fragment := [] })) ∧
    (urlParse (gs "https://a.com/x")).map (fun b => normalizeURL b (gs "/y")) =
        some (Except.ok ⟨gs "https", [], gs "a.com", gs "/y", [], []⟩) ∧
    (urlParse (gs "https://a.com/x")).map
        (fun b => normalizeURL b (gs "https://a.com/y#frag")) =
        some (Except.ok ⟨gs "https", [], gs "a.com", gs "/y", [], []⟩) ∧
    (urlParse (gs "https://a.com/x")).map
        (fun b => normalizeURL b (gs "javascript:void(0)")) =
        some (Except.error NormErr.unsupportedScheme) ∧
    urlString ⟨gs "https", [], gs "a.com", gs "/y", [], []⟩ = gs "https://a.com/y" := by
  refine ⟨?_, ?_, by decide, by decide, by decide, by decide⟩
  · intro h
    by_cases h0 : trimSpace href = []
    · simp [normalizeURL, h0]
    · rcases h with h | h
      · exact absurd h h0
      · simp [normalizeURL, h0, h]
  · intro parsed hne hp
    constructor
    · intro hs
      simp only [resolveIfRel] at hs
      simp only [normalizeURL, if_neg hne, hp, if_pos hs]
    · intro hs
      have hcond : ¬ ((resolveIfRel base parsed).scheme ≠ gs "http" ∧
          (resolveIfRel base parsed).scheme ≠ gs "https") := by
        rcases hs with h | h
        · exact fun hc => hc.1 h
        · exact fun hc => hc.2 h
      simp only [resolveIfRel] at hcond
      simp only [normalizeURL, if_neg hne, hp, if_neg hcond, resolveIfRel]

/-- C7, witness: the characterization applied at a whitespace-only href
    (trims to empty, fails with `InvalidURL`). -/
theorem C7_main_witness :
    normalizeURL ⟨gs "https", [], gs "a.com", gs "/x", [], []⟩ [32] =
      Except.error NormErr.invalidURL :=
  (C7_main ⟨gs "https", [], gs "a.com", gs "/x", [], []⟩ [32]).1 (Or.inl (by decide))

/-- C8 crash scenario: the first seed's page has a favicon href that
    `url.Parse` rejects (extraction panics there); the second seed's page is
    plain. -/
def doc8bad : HtmlDoc := { emptyDoc with linkTags := [(gs "icon", [10])] }

def seeds8 : GoStr := gs "http://a.com/p1,http://a.com/p2"

def cfg8 : CrawlCfg :=
  { env := { existsQ := fun _ => ExistsRes.notFound,
             fetch := fun u => if u = gs "http://a.com/p1" then some doc8bad
               else some emptyDoc,
             upsertErr := fun _ => false },
    allowed := [], maxPages := 500, maxDepth := 5 }

/-- C8 budget scenario: `maxPages = 1` with two reachable unindexed seed
    pages. -/
def cfg8one : CrawlCfg :=
  { env := { existsQ := fun _ => ExistsRes.notFound, fetch := fun _ => some emptyDoc,
             upsertErr := fun _ => false },
    allowed := [], maxPages := 1, maxDepth := 5 }

/-- C8, counterexample. The claim says the loop terminates exactly when the
    queue is empty or `pagesCrawled` has reached `maxPages`, for every
    behavior of the fetcher and store. A third terminal case exists: the
    `extractPage` panic aborts the whole run. After processing the first
    seed, the run is stuck (a fixed point) with a non-empty queue and
    `pagesCrawled` far below the budget. -/
theorem C8_counterexample :
    (crawlRun cfg8 1 (initState seeds8)).1.crashed = true ∧
    (crawlRun cfg8 1 (initState seeds8)).1.queue ≠ [] ∧
    (crawlRun cfg8 1 (initState seeds8)).1.pages < cfg8.maxPages ∧
    isDone cfg8 (crawlRun cfg8 1 (initState seeds8)).1 = true ∧
    crawlRun cfg8 5 (initState seeds8) = crawlRun cfg8 1 (initState seeds8) := by
  decide

/-- C8, amended: the loop always terminates — it reaches a state where the
    queue is empty, or `pagesCrawled` has reached `maxPages`, or extraction
    has panicked — and such a state is a fixed point with an empty trace.
    At most `maxPages` pages are counted per run, the trace records exactly
    one upsert per counted page, and with `maxPages = 1` and two reachable
    unindexed pages exactly one upsert occurs. -/
theorem C8_amended (c : CrawlCfg) (st : CrawlState) (h : st.pages ≤ c.maxPages) :
    (∃ n, isDone c (crawlRun c n st).1 = true) ∧
    (∀ n, (crawlRun c n st).1.pages ≤ c.maxPages) ∧
    (∀ n, countUpserts (crawlRun c n st).2 + st.pages = (crawlRun c n st).1.pages) ∧
    (∀ n, isDone c st = true → crawlRun c n st = (st, [])) ∧
    countUpserts (crawlRun cfg8one 3 (initState seeds8)).2 = 1 ∧
    isDone cfg8one (crawlRun cfg8one 3 (initState seeds8)).1 = true :=
  ⟨crawlRun_terminates c st, fun n => crawlRun_pages_bound c n st h,
   fun n => crawlRun_upserts c n st, fun n => crawlRun_done_fix c n st,
   by decide, by decide⟩

/-- C8, witness: the amended theorem at the `maxPages = 1` scenario from its
    own initial state. -/
theorem C8_amended_witness :
    (initState seeds8).pages ≤ cfg8one.maxPages ∧
    ((∃ n, isDone cfg8one (crawlRun cfg8one n (initState seeds8)).1 = true) ∧
     (∀ n, (crawlRun cfg8one n (initState seeds8)).1.pages ≤ cfg8one.maxPages) ∧
     (∀ n, countUpserts (crawlRun cfg8one n (initState seeds8)).2 +
         (initState seeds8).pages = (crawlRun cfg8one n (initState seeds8)).1.pages) ∧
     (∀ n, isDone cfg8one (initState seeds8) = true →
         crawlRun cfg8one n (initState seeds8) = (initState seeds8, [])) ∧
     countUpserts (crawlRun cfg8one 3 (initState seeds8)).2 = 1 ∧
     isDone cfg8one (crawlRun cfg8one 3 (initState seeds8)).1 = true) :=
  ⟨by decide, C8_amended cfg8one (initState seeds8) (by decide)⟩

/-- C9 scenario: one seed, `maxDepth = 0`, and a fetched page that does
    contain links. -/
def doc9 : HtmlDoc := { emptyDoc with aHrefs := [gs "/x", gs "/y"] }

def seed9 : GoStr := gs "http://a.com/p1"

def cfg9 : CrawlCfg :=
  { env := { existsQ := fun _ => ExistsRes.notFound, fetch := fun _ => some doc9,
             upsertErr := fun _ => false },
    allowed := [], maxPages := 500, maxDepth := 0 }

def pu9 : GoURL := ⟨gs "http", [], gs "a.com", gs "/p1", [], []⟩

/-- C9: links found on a page dequeued at depth `d` are enqueued at depth
    `d + 1` and only when `d < maxDepth` — over any run, every enqueue event
    carries a depth between 1 and `maxDepth` (so no enqueue ever happens from
    a page at depth `≥ maxDepth`), and the link-enqueueing loop tags every
    item with exactly the depth it is asked for (`item.Depth + 1` at the call
    site). In particular, seeding one URL with `maxDepth = 0` crawls exactly
    that one URL and enqueues no children even though the page has links. -/
theorem C9_main (c : CrawlCfg) (n : Nat) (st : CrawlState) :
    (∀ e ∈ (crawlRun c n st).2, evDepthLe c.maxDepth e) ∧
    (∀ pu vis links d it, it ∈ linkEnqueues pu vis links d → it.depth = d) ∧
    (crawlRun cfg9 3 (initState seed9)).1.pages = 1 ∧
    countFetching (crawlRun cfg9 3 (initState seed9)).2 seed9 = 1 ∧
    (∀ u, countEnqueue (crawlRun cfg9 3 (initState seed9)).2 u = 0) := by
  refine ⟨crawlRun_depthOK c n st, ?_, by decide, by decide, fun u => rfl⟩
  intro pu vis links d it hit
  exact (linkEnqueues_mem pu vis links d it hit).1

/-- C9, witness: the depth bound applied to a concrete enqueue-free trace
    event, and the depth tag applied to a concrete link enqueue. -/
theorem C9_main_witness :
    Ev.fetching seed9 ∈ (crawlRun cfg9 3 (initState seed9)).2 ∧
    evDepthLe cfg9.maxDepth (Ev.fetching seed9) ∧
    QItem.mk (gs "http://a.com/x") 3 ∈ linkEnqueues pu9 [] [gs "/x"] 3 ∧
    (QItem.mk (gs "http://a.com/x") 3).depth = 3 :=
  ⟨by decide,
   (C9_main cfg9 3 (initState seed9)).1 (Ev.fetching seed9) (by decide),
   by decide,
   (C9_main cfg9 3 (initState seed9)).2.1 pu9 [] [gs "/x"] 3
     (QItem.mk (gs "http://a.com/x") 3) (by decide)⟩

/-- C10 scenario: the specification's own examples. -/
def urlBlog : GoURL := ⟨gs "https", [], gs "blog.example.com", [], [], []⟩

def urlOrg : GoURL := ⟨gs "https", [], gs "example.org", [], [], []⟩

/-- C10: `isAllowed(url, allowList)` is true when the allow-list is empty,
    and otherwise true exactly when the URL's hostname ends with (suffix
    match) some entry of the allow-list; the specification's three examples
    hold. -/
theorem C10_main (u : GoURL) (al : List GoStr) :
    (isAllowedDomain u al = true ↔
        al = [] ∨ ∃ d ∈ al, hasSuffix (hostnameOf u) d = true) ∧
    isAllowedDomain urlBlog [gs "example.com"] = true ∧
    isAllowedDomain urlOrg [gs "example.com"] = false ∧
    isAllowedDomain urlOrg [] = true := by
  refine ⟨?_, by decide, by decide, by decide⟩
  by_cases h : al = []
  · subst h
    simp [isAllowedDomain]
  · simp [isAllowedDomain, List.length_eq_zero, h, List.any_eq_true]
